import Mathlib

/-!
# 3pi+ maze runner: path optimizer, wall-following rules and decision recording

A shallow embedding of the decision core of `src/mazeRunnerV2.cpp`:

* `optimizePath` (the triplet rewriting of the recorded decision history),
* `rightHandRule` / `leftHandRule`,
* the decision and recording steps of one exploration cycle of `mazeRunner`,
* `updateSensors`, the sensing of a junction and the goal test,
* one tracking cycle of `straightSegment` with its speed clamp,
* the replay cycle of `mazeRunner` and its cursor `optCount`.

The `char` buffers `decisionHistory` and `optimizedPath` are lists of `Char`
of `MAX_DECISIONS` cells, `int` counters that can be `-1` are `Int`, loop
indices that start at `0` and only grow are `Nat`.
-/

namespace MazeRunner

/-! ## Buffers -/

/-- Capacity of `decisionHistory` and of `optimizedPath`. -/
def MAX_DECISIONS : Nat := 100

/-- The value of a cell of a zero-initialised global `char` array. -/
def nul : Char := Char.ofNat 0

/-- Read of `buf[i]`. -/
def rd (buf : List Char) (i : Nat) : Char := buf.getD i nul

/-- Write `buf[i] = c`. -/
def wr (buf : List Char) (i : Nat) (c : Char) : List Char := buf.set i c

/-- A global buffer of `MAX_DECISIONS` cells whose first cells hold `xs`. -/
def mkBuffer (xs : List Char) : List Char :=
  xs ++ List.replicate (MAX_DECISIONS - xs.length) nul

/-! ## `optimizePath` -/

/-- The `if / else if` chain of the body of the `for` loop of `optimizePath`
on the three cells `path[i]`, `path[i + 1]`, `path[i + 2]`: the character the
branch that fires stores in `optimizedPath`, `none` when no branch fires. -/
def matchTriplet (a b c : Char) : Option Char :=
  if a = 'S' ∧ b = 'U' ∧ c = 'L' then some 'R'
  else if a = 'S' ∧ b = 'U' ∧ c = 'R' then some 'L'
  else if a = 'L' ∧ b = 'U' ∧ c = 'S' then some 'R'
  else if a = 'R' ∧ b = 'U' ∧ c = 'S' then some 'L'
  else if a = 'L' ∧ b = 'U' ∧ c = 'L' then some 'S'
  else if a = 'R' ∧ b = 'U' ∧ c = 'R' then some 'S'
  else if a = 'R' ∧ b = 'U' ∧ c = 'L' then some 'U'
  else if a = 'L' ∧ b = 'U' ∧ c = 'R' then some 'U'
  else if a = 'S' ∧ b = 'U' ∧ c = 'S' then some 'U'
  else none

/-- The variables the `for` loop of `optimizePath` writes. -/
structure PassState where
  optimizedPath : List Char
  optIndex : Nat
  simplified : Bool
deriving DecidableEq

/-- The loop `for (int i = 0; i <= decisionCount; ++i)` of `optimizePath`,
started at index `i`. A branch that fires does `i += 2; continue`, so the
next iteration runs at `i + 3`. The first argument bounds the number of
iterations; `none` means the bound was reached before the loop condition
failed. -/
def forLoop (path : List Char) (decisionCount : Int) :
    Nat → Nat → PassState → Option PassState
  | 0, i, st => if (i : Int) ≤ decisionCount then none else some st
  | fuel + 1, i, st =>
    if (i : Int) ≤ decisionCount then
      if (i : Int) < decisionCount - 1 then
        match matchTriplet (rd path i) (rd path (i + 1)) (rd path (i + 2)) with
        | some r =>
          forLoop path decisionCount fuel (i + 3)
            ⟨wr st.optimizedPath st.optIndex r, st.optIndex + 1, true⟩
        | none =>
          forLoop path decisionCount fuel (i + 1)
            ⟨wr st.optimizedPath st.optIndex (rd path i), st.optIndex + 1, st.simplified⟩
      else
        forLoop path decisionCount fuel (i + 1)
          ⟨wr st.optimizedPath st.optIndex (rd path i), st.optIndex + 1, st.simplified⟩
    else some st

/-- One pass of the `while` body up to the end of the `for` loop:
`simplified = false; optIndex = 0;` and the scan from `i = 0`. The loop runs
at most `decisionCount + 1` iterations. -/
def scanPass (path optimizedPath : List Char) (decisionCount : Int) : Option PassState :=
  forLoop path decisionCount (decisionCount + 1).toNat 0 ⟨optimizedPath, 0, false⟩

/-- The loop `for (int i = 0; i < optIndex; i++) path[i] = optimizedPath[i];`. -/
def copyBack (optimizedPath : List Char) (optIndex : Nat) (path : List Char) : List Char :=
  (List.range optIndex).foldl (fun p i => wr p i (rd optimizedPath i)) path

/-- The loop counting the cells `optimizedPath[i] == 'U'` for `i < optIndex`. -/
def countU (optimizedPath : List Char) (optIndex : Nat) : Nat :=
  (List.range optIndex).foldl (fun u i => if rd optimizedPath i = 'U' then u + 1 else u) 0

/-- The memory `optimizePath` reads and writes: the array behind `path`
(`decisionHistory`), the global `optimizedPath`, and the `int` behind the
reference `decisionCount`. -/
structure OptState where
  path : List Char
  optimizedPath : List Char
  decisionCount : Int
deriving DecidableEq

/-- One execution of the body of `while (simplified)`: the scan, the copy
back into `path`, the count of `'U'`, and the `if (u == 0)` exit. The result
is the memory after the body and whether the loop runs again: not after the
`break`, and otherwise exactly when `simplified` was set. -/
def whileBody (s : OptState) : Option (Bool × OptState) :=
  match scanPass s.path s.optimizedPath s.decisionCount with
  | none => none
  | some st =>
    let path := copyBack st.optimizedPath st.optIndex s.path
    if countU st.optimizedPath st.optIndex = 0 then
      some (false, ⟨path, st.optimizedPath, (st.optIndex : Int) - 1⟩)
    else
      some (st.simplified, ⟨path, st.optimizedPath, s.decisionCount⟩)

/-- The loop `while (simplified)` of `optimizePath`, entered with `simplified`
true. The first argument bounds the number of passes; `none` means that many
passes ran without the loop ending. -/
def whileLoop : Nat → OptState → Option OptState
  | 0, _ => none
  | fuel + 1, s =>
    match whileBody s with
    | none => none
    | some (true, s') => whileLoop fuel s'
    | some (false, s') => some s'

/-- The function `optimizePath(path, decisionCount)`, run for at most `fuel`
passes of its loop. -/
def optimizePath (fuel : Nat) (s : OptState) : Option OptState :=
  whileLoop fuel s

/-- The memory at the call `optimizePath(decisionHistory, decisionCount)`
after an exploration that recorded `xs`, `optimizedPath` still zeroed. -/
def recorded (xs : List Char) : OptState :=
  ⟨mkBuffer xs, mkBuffer [], (xs.length : Int) - 1⟩

/-- Both buffers have their `MAX_DECISIONS` cells and `decisionCount` is the
index of a cell, or `-1` for the empty history. -/
def InCapacity (s : OptState) : Prop :=
  s.path.length = MAX_DECISIONS ∧ s.optimizedPath.length = MAX_DECISIONS ∧
    -1 ≤ s.decisionCount ∧ s.decisionCount < MAX_DECISIONS

instance (s : OptState) : Decidable (InCapacity s) := by
  unfold InCapacity; infer_instance

/-- The recorded history: the cells `path[0 .. decisionCount]`. -/
def history (s : OptState) : List Char :=
  s.path.take (s.decisionCount + 1).toNat

/-! ## The rewriting of the specification -/

/-- The nine triplet rules of the specification, `((A, 'U', B), C)` for
`A, U, B` rewrites to `C`. -/
def rewriteTable : List ((Char × Char × Char) × Char) :=
  [(('S', 'U', 'L'), 'R'), (('S', 'U', 'R'), 'L'), (('L', 'U', 'S'), 'R'),
   (('R', 'U', 'S'), 'L'), (('L', 'U', 'L'), 'S'), (('R', 'U', 'R'), 'S'),
   (('R', 'U', 'L'), 'U'), (('L', 'U', 'R'), 'U'), (('S', 'U', 'S'), 'U')]

/-- The replacement the table lists for a triplet, if it lists one. -/
def tableLookup (a b c : Char) : Option Char :=
  rewriteTable.lookup (a, b, c)

/-- The reference greedy scan of the specification: on a triplet of the table
emit the single replacement and go on after the three entries, otherwise emit
the current entry and go on with the next one. -/
def greedyScan : List Char → List Char
  | a :: b :: c :: rest =>
    match tableLookup a b c with
    | some r => r :: greedyScan rest
    | none => a :: greedyScan (b :: c :: rest)
  | [a, b] => [a, b]
  | [a] => [a]
  | [] => []

/-- Whether the reference scan rewrites at least one triplet. -/
def greedyHit : List Char → Bool
  | a :: b :: c :: rest =>
    match tableLookup a b c with
    | some _ => true
    | none => greedyHit (b :: c :: rest)
  | [_, _] => false
  | [_] => false
  | [] => false

/-- The quarter turns of a maneuver: `S = 0`, `R = 1`, `U = 2`, `L = 3`. -/
def quarterTurns (c : Char) : Nat :=
  if c = 'S' then 0 else if c = 'R' then 1 else if c = 'U' then 2
  else if c = 'L' then 3 else 0

/-- The net heading of a sequence of maneuvers, in quarter turns modulo 4. -/
def heading (xs : List Char) : Nat :=
  (xs.map quarterTurns).sum % 4

/-! ## The exploration cycle of `mazeRunner` -/

/-- The globals one exploration cycle of `mazeRunner` reads and writes once
the junction has been sensed. -/
structure Globals where
  rightHand : Bool
  leftMem : Bool
  centerMem : Bool
  rightMem : Bool
  decision : Char
  decisionMem : Char
  decisionHistory : List Char
  decisionCount : Int
deriving DecidableEq

/-- Write `buf[i] = c` at an `int` index; a negative index is outside the
array and leaves the list as it is. -/
def wrAt (buf : List Char) (i : Int) (c : Char) : List Char :=
  if 0 ≤ i then wr buf i.toNat c else buf

/-- The function `leftHandRule()`: the returned character and the globals, with `decision`
assigned. -/
def leftHandRule (g : Globals) : Char × Globals :=
  if g.leftMem then ('L', { g with decision := 'L' })
  else if g.centerMem then ('S', { g with decision := 'S' })
  else if g.rightMem then ('R', { g with decision := 'R' })
  else ('U', { g with decision := 'U' })

/-- The function `rightHandRule()`: the returned character and the globals, with `decision`
assigned. -/
def rightHandRule (g : Globals) : Char × Globals :=
  if g.rightMem then ('R', { g with decision := 'R' })
  else if g.centerMem then ('S', { g with decision := 'S' })
  else if g.leftMem then ('L', { g with decision := 'L' })
  else ('U', { g with decision := 'U' })

/-- The step `if (rightHand) rightHandRule(); else if (!rightHand)
leftHandRule();` of the exploration loop; the returned character is dropped. -/
def searchRule (g : Globals) : Globals :=
  if g.rightHand then (rightHandRule g).2
  else if !g.rightHand then (leftHandRule g).2
  else g

/-- The two overrides of the exploration loop that follow the rule. -/
def overrides (g : Globals) : Globals :=
  let g1 : Globals :=
    if g.leftMem = false ∧ g.centerMem = false ∧ g.rightMem = true then
      { g with decision := 'R' }
    else g
  if g1.decision = 'U' ∧ g1.rightMem = true then { g1 with decision := 'R' } else g1

/-- The three statements every branch of the recording step runs. -/
def store (g : Globals) : Globals :=
  { g with
    decisionMem := g.decision
    decisionCount := g.decisionCount + 1
    decisionHistory := wrAt g.decisionHistory (g.decisionCount + 1) g.decision }

/-- The recording step of the exploration loop (`if (decision == 'U') ...
else if ... else if ...`). -/
def record (g : Globals) : Globals :=
  if g.decision = 'U' then store g
  else if g.centerMem = true ∧ (g.leftMem = true ∨ g.rightMem = true) then store g
  else if g.leftMem = true ∧ g.rightMem = true ∧ (g.decision = 'L' ∨ g.decision = 'R') then
    store g
  else g

/-- One exploration cycle from the choice of the maneuver to its recording:
the rule, the two overrides, the recording step. `turnControl()`, which runs
between the overrides and the recording, only reads `decision` and drives the
motors. -/
def exploreCycle (g : Globals) : Globals :=
  record (overrides (searchRule g))

/-! ## Sensing a junction -/

/-- A value stored in a `uint16_t`. -/
def u16 (n : Int) : Nat := (n % 65536).toNat

/-- A `uint16_t` value assigned to an `int`, 16 bits wide on the ATmega32U4
of the robot. -/
def i16 (n : Nat) : Int :=
  if n % 65536 < 32768 then ((n % 65536 : Nat) : Int) else ((n % 65536 : Nat) : Int) - 65536

/-- Read of cell `i` of an array of `uint16_t`. -/
def rdN (buf : List Nat) (i : Nat) : Nat := buf.getD i 0

/-- The globals `updateSensors()` leaves for the junction logic. `sensVals`
has the four cells of its declaration `uint16_t sensVals[4]`. The line
position `predict`, which the library call returns and only
`straightSegment` reads, is left out. -/
structure Sensors where
  sensVals : List Nat
  left : Bool
  center : Bool
  right : Bool
deriving DecidableEq

/-- The function `updateSensors()` on the calibrated readings `lineSensVals`
that `readCalibrated` delivered: the copy into `sensVals`, the inversion
`1000 - value` for a white line, and the three thresholds at 700. The
statements on `sensVals[4]` access a cell behind the four-cell array: the
two writes land outside `sensVals` and are not modelled, and the value the
read `rightInt = sensVals[4]` finds there, which depends on what the build
places behind the array, is the argument `beyond`. -/
def updateSensors (whiteLine : Bool) (lineSensVals : List Nat) (beyond : Nat) : Sensors :=
  let copied : List Nat :=
    [u16 (rdN lineSensVals 0), u16 (rdN lineSensVals 1), u16 (rdN lineSensVals 2),
     u16 (rdN lineSensVals 3)]
  let sensVals : List Nat :=
    if whiteLine then
      [u16 (1000 - (rdN copied 0 : Int)), u16 (1000 - (rdN copied 1 : Int)),
       u16 (1000 - (rdN copied 2 : Int)), u16 (1000 - (rdN copied 3 : Int))]
    else copied
  let leftInt : Int := i16 (rdN sensVals 0)
  let centerInt : Int := i16 (rdN sensVals 2)
  let rightInt : Int := i16 beyond
  ⟨sensVals, decide (leftInt > 700), decide (centerInt > 700), decide (rightInt > 700)⟩

/-- The flags a cycle of `mazeRunner` holds once the junction is sensed:
`leftMem`, `centerMem`, `rightMem`, and the `left`, `center`, `right` of the
last `updateSensors()`. -/
structure Junction where
  leftMem : Bool
  centerMem : Bool
  rightMem : Bool
  left : Bool
  center : Bool
  right : Bool
deriving DecidableEq

/-- The sensing part of a cycle, the same in the exploration loop and in
the replay loop: `updateSensors()` on the reading taken after the 38 ms
crawl sets `leftMem` and `rightMem`; `updateSensors()` on the reading taken
after `crawlFwd_alignToWheel()` sets `centerMem` from `center == 1 ||
sensVals[1] > 700 || sensVals[3] > 700`. `beyond1` and `beyond2` are what the
two calls find in the cell behind `sensVals`. -/
def senseJunction (whiteLine : Bool) (first second : List Nat)
    (beyond1 beyond2 : Nat) : Junction :=
  let s1 := updateSensors whiteLine first beyond1
  let s2 := updateSensors whiteLine second beyond2
  let centerMem : Bool :=
    s2.center || decide (rdN s2.sensVals 1 > 700) || decide (rdN s2.sensVals 3 > 700)
  ⟨s1.left, centerMem, s1.right, s2.left, s2.center, s2.right⟩

/-- The test `leftMem && centerMem && rightMem && left && center && right`
on which the exploration loop breaks. -/
def goalDetected (j : Junction) : Bool :=
  j.leftMem && j.centerMem && j.rightMem && j.left && j.center && j.right

/-! ## The replay cycle of `mazeRunner` -/

/-- The globals one replay cycle of `mazeRunner` reads and writes once the
junction has been sensed. -/
structure ReplayGlobals where
  leftMem : Bool
  centerMem : Bool
  rightMem : Bool
  decision : Char
  optimizedPath : List Char
  optCount : Int
  decisionCount : Int
deriving DecidableEq

/-- Read of `buf[i]` at an `int` index; a negative index is outside the
array and reads as the zero character. -/
def rdAt (buf : List Char) (i : Int) : Char :=
  if 0 ≤ i then rd buf i.toNat else nul

/-- Whether the replay cycle takes the last branch of its selection, the one
that runs `optCount++; decision = optimizedPath[optCount];`. -/
def readsPath (g : ReplayGlobals) : Bool :=
  !(!g.leftMem && !g.centerMem && g.rightMem) && !(g.leftMem && !g.centerMem && !g.rightMem)

/-- The selection of the replay cycle: `'R'` at a right-only fork, `'L'` at
a left-only fork, otherwise the next entry of `optimizedPath`. -/
def replaySelect (g : ReplayGlobals) : ReplayGlobals :=
  if !g.leftMem && !g.centerMem && g.rightMem then { g with decision := 'R' }
  else if g.leftMem && !g.centerMem && !g.rightMem then { g with decision := 'L' }
  else
    { g with
      optCount := g.optCount + 1
      decision := rdAt g.optimizedPath (g.optCount + 1) }

/-- The override `if (decision == 'U' && rightMem) decision = 'R';` of the
replay cycle. -/
def replayOverride (g : ReplayGlobals) : ReplayGlobals :=
  if g.decision = 'U' ∧ g.rightMem = true then { g with decision := 'R' } else g

/-- The maneuver of a replay cycle as handed to `turnControl()`: the
selection, then the override. -/
def replayDecide (g : ReplayGlobals) : ReplayGlobals :=
  replayOverride (replaySelect g)

/-- One replay cycle on the sensed junction `j`: the flags are stored, the
loop breaks on `goal || (optCount == decisionCount)`, otherwise the maneuver
is decided. The result is whether the loop runs again and the globals. -/
def replayCycle (j : Junction) (g : ReplayGlobals) : Bool × ReplayGlobals :=
  let g1 : ReplayGlobals :=
    { g with leftMem := j.leftMem, centerMem := j.centerMem, rightMem := j.rightMem }
  if goalDetected j || decide (g1.optCount = g1.decisionCount) then (false, g1)
  else (true, replayDecide g1)

/-- The replay loop over the junctions the robot meets, in order: it ends at
the first cycle that breaks, or when the junctions run out. -/
def replayLoop : List Junction → ReplayGlobals → ReplayGlobals
  | [], g => g
  | j :: js, g =>
    match replayCycle j g with
    | (true, g1) => replayLoop js g1
    | (false, g1) => g1

/-- The indices at which the cycles of the replay loop read `optimizedPath`,
in the order of the reads. -/
def replayReads : List Junction → ReplayGlobals → List Int
  | [], _ => []
  | j :: js, g =>
    match replayCycle j g with
    | (true, g1) =>
      if readsPath { g with leftMem := j.leftMem, centerMem := j.centerMem,
                            rightMem := j.rightMem } then
        g1.optCount :: replayReads js g1
      else replayReads js g1
    | (false, _) => []

/-! ## The steering of `straightSegment` -/

/-- The proportional gain `Kp`. -/
def Kp : Int := 64

/-- The derivative gain `Kd`. -/
def Kd : Int := 256

/-- The line position of a centered line, `midPoint`. -/
def midPoint : Int := 2000

/-- A value stored in an `int` or `int16_t`, 16 bits wide on the ATmega32U4. -/
def int16 (x : Int) : Int := (x + 32768) % 65536 - 32768

/-- A value of type `int32_t`. -/
def int32 (x : Int) : Int := (x + 2147483648) % 4294967296 - 2147483648

/-- The significand of the constant `0.7`: avr-gcc gives `double` the 32 bits
of IEEE binary32, in which the number nearest to 0.7 is `11744051 / 2^24`. -/
def sig07 : Nat := 11744051

/-- The number of low bits a natural number `n` loses when it is cut to 24
significant bits: the least `s` with `n / 2^s < 2^24`, searched from `s`
upward in at most `fuel` steps. -/
def dropped (n : Nat) : Nat → Nat → Nat
  | 0, s => s
  | fuel + 1, s => if n / 2 ^ s < 2 ^ 24 then s else dropped n fuel (s + 1)

/-- Rounding of a natural number to the nearest number with 24 significant
bits, ties to the even significand: the rounding of binary32 arithmetic. -/
def round24 (n : Nat) : Nat :=
  let s := dropped n n 0
  if s = 0 then n
  else
    let q := n / 2 ^ s
    let r := n % 2 ^ s
    let half := 2 ^ (s - 1)
    if r < half then q * 2 ^ s
    else if r > half then (q + 1) * 2 ^ s
    else if q % 2 = 0 then q * 2 ^ s
    else (q + 1) * 2 ^ s

/-- The `double` product `motorSpeed*(0.7)`, in units of `2^-24`: the `int`
converts exactly, the exact product with `11744051 / 2^24` is rounded to 24
significant bits. -/
def mulBy07 (motorSpeed : Int) : Int :=
  if 0 ≤ motorSpeed then (round24 (motorSpeed.toNat * sig07) : Int)
  else -(round24 ((-motorSpeed).toNat * sig07) : Int)

/-- Modelled from the spec: the Arduino macro `constrain(amt, low, high)` is
not under `src`; the spec has the wheel speed clamped to the interval from
`low` to `high`, so the value is `low` when `amt` is below `low`, `high` when
`amt` is above `high`, and `amt` otherwise. Here `low` is a `double` given in
units of `2^-24`, `amt` and `high` are `int`; the result is a `double`, and
its assignment to an `int` truncates toward zero. -/
def constrain (amt low high : Int) : Int :=
  if amt * 2 ^ 24 < low then Int.tdiv low (2 ^ 24)
  else if amt > high then high
  else amt

/-- The globals one tracking cycle of `straightSegment` writes. -/
structure Steering where
  deviation : Int
  motorSpeedAdj : Int
  lastDeviation : Int
  motorSpeedL : Int
  motorSpeedR : Int
deriving DecidableEq

/-- One tracking cycle of `straightSegment` from the line position `predict`
to the speeds handed to `motors.setSpeeds`. `predict - midPoint` is computed
in `unsigned int` and stored in an `int`; the two terms of `motorSpeedAdj` are
computed in `int32_t` with the truncating division of C. -/
def straightSegmentStep (predict : Nat) (lastDeviation motorSpeed : Int) : Steering :=
  let deviation : Int := i16 (u16 ((predict : Int) - midPoint))
  let motorSpeedAdj : Int :=
    int16 (int32 (Int.tdiv (int32 (deviation * Kp)) 256 +
      Int.tdiv (int32 (int16 (deviation - lastDeviation) * Kd)) 256))
  let motorSpeedL : Int := int16 (int16 motorSpeed + motorSpeedAdj)
  let motorSpeedR : Int := int16 (int16 motorSpeed - motorSpeedAdj)
  ⟨deviation, motorSpeedAdj, deviation,
    int16 (constrain motorSpeedL (mulBy07 motorSpeed) (int16 motorSpeed)),
    int16 (constrain motorSpeedR (mulBy07 motorSpeed) (int16 motorSpeed))⟩

/-! ## Buffer lemmas -/

theorem rd_of_drop {buf : List Char} {i : Nat} {a : Char} {t : List Char}
    (h : buf.drop i = a :: t) : rd buf i = a := by
  have h1 : buf[i]? = some a := by
    rw [← List.head?_drop, h]; rfl
  simp [rd, List.getD, h1]

theorem drop_succ_of_drop {buf : List Char} {i : Nat} {a : Char} {t : List Char}
    (h : buf.drop i = a :: t) : buf.drop (i + 1) = t := by
  have : buf.drop (i + 1) = (buf.drop i).drop 1 := by
    rw [List.drop_drop, Nat.add_comm]
  rw [this, h]; rfl

theorem take_succ_wr (buf : List Char) (k : Nat) (x : Char) (hk : k < buf.length) :
    (wr buf k x).take (k + 1) = buf.take k ++ [x] := by
  unfold wr
  induction buf generalizing k with
  | nil => simp at hk
  | cons b t ih =>
    cases k with
    | zero => simp
    | succ k =>
      simp only [List.set_cons_succ, List.take_succ_cons, List.cons_append, List.cons.injEq,
        true_and]
      exact ih k (by simpa using hk)

theorem drop_wr (buf : List Char) (k n : Nat) (x : Char) (hk : k < n) :
    (wr buf k x).drop n = buf.drop n := by
  unfold wr
  induction buf generalizing k n with
  | nil => simp
  | cons b t ih =>
    cases n with
    | zero => omega
    | succ n =>
      cases k with
      | zero => simp
      | succ k =>
        simp only [List.set_cons_succ, List.drop_succ_cons]
        exact ih k n (by omega)

theorem splice_wr (buf : List Char) (k : Nat) (x : Char) (out : List Char)
    (hk : k < buf.length) :
    (wr buf k x).take (k + 1) ++ out ++ (wr buf k x).drop (k + 1 + out.length)
      = buf.take k ++ (x :: out) ++ buf.drop (k + (x :: out).length) := by
  rw [take_succ_wr buf k x hk, drop_wr buf k _ x (by omega)]
  simp [Nat.add_assoc, Nat.add_comm 1]

theorem length_wr (buf : List Char) (k : Nat) (x : Char) :
    (wr buf k x).length = buf.length := by
  simp [wr]

/-! ## The scan of `optimizePath` and the reference scan -/

theorem matchTriplet_eq (a b c : Char) : matchTriplet a b c = tableLookup a b c := by
  unfold matchTriplet tableLookup rewriteTable
  simp only [List.lookup]
  split_ifs with h1 h2 h3 h4 h5 h6 h7 h8 h9
  all_goals first
    | (obtain ⟨rfl, rfl, rfl⟩ := ‹_ ∧ _›; rfl)
    | skip
  have e : ∀ x y z : Char, ((a, b, c) == (x, y, z)) = decide (a = x ∧ b = y ∧ c = z) := by
    intro x y z
    by_cases h : a = x ∧ b = y ∧ c = z
    · obtain ⟨rfl, rfl, rfl⟩ := h; simp
    · rw [decide_eq_false h]
      apply Bool.eq_false_iff.mpr
      intro hh
      apply h
      simpa using hh
  simp only [e, h1, h2, h3, h4, h5, h6, h7, h8, h9, decide_False]

theorem greedyScan_length_le : ∀ xs : List Char, (greedyScan xs).length ≤ xs.length
  | a :: b :: c :: rest => by
    rw [greedyScan]
    have h1 := greedyScan_length_le rest
    have h2 := greedyScan_length_le (b :: c :: rest)
    cases tableLookup a b c <;> simp at h2 ⊢ <;> omega
  | [_, _] => by simp [greedyScan]
  | [_] => by simp [greedyScan]
  | [] => by simp [greedyScan]

/-- The `for` loop of `optimizePath`, started at index `i` on the cells
`seg = path[i .. decisionCount]`, writes the reference scan of `seg` into
`optimizedPath` from `optIndex` on and sets `simplified` when the reference
scan rewrites a triplet. -/
theorem forLoop_scan (path : List Char) (dc : Int) :
    ∀ (fuel i : Nat) (st : PassState) (seg post : List Char),
      seg.length ≤ fuel →
      (i : Int) + seg.length = dc + 1 →
      path.drop i = seg ++ post →
      st.optIndex + seg.length ≤ st.optimizedPath.length →
      forLoop path dc fuel i st =
        some ⟨st.optimizedPath.take st.optIndex ++ greedyScan seg ++
                st.optimizedPath.drop (st.optIndex + (greedyScan seg).length),
              st.optIndex + (greedyScan seg).length,
              st.simplified || greedyHit seg⟩ := by
  intro fuel
  induction fuel with
  | zero =>
    intro i st seg post hf hi _ _
    have hs : seg = [] := List.length_eq_zero.mp (Nat.le_zero.mp hf)
    subst hs
    have : ¬ (i : Int) ≤ dc := by simp at hi; omega
    simp [forLoop, this, greedyScan, greedyHit]
  | succ fuel ih =>
    intro i st seg post hf hi hp ho
    match seg, hf, hi, hp, ho with
    | [], _, hi, _, _ =>
      have : ¬ (i : Int) ≤ dc := by simp at hi; omega
      simp [forLoop, this, greedyScan, greedyHit]
    | [a], hf, hi, hp, ho =>
      have h1 : (i : Int) ≤ dc := by simp at hi; omega
      have h2 : ¬ (i : Int) < dc - 1 := by simp at hi; omega
      have ha : rd path i = a := rd_of_drop hp
      have hp1 := drop_succ_of_drop hp
      simp only [List.length_cons, List.length_nil] at ho
      rw [forLoop, if_pos h1, if_neg h2, ha]
      rw [ih (i + 1) _ [] post (by simp) (by simp at hi ⊢; omega) (by simpa using hp1)
        (by simp [length_wr]; omega)]
      simp only [greedyScan, greedyHit]
      rw [splice_wr _ _ _ _ (by omega)]
      simp
    | [a, b], hf, hi, hp, ho =>
      have h1 : (i : Int) ≤ dc := by simp at hi; omega
      have h2 : ¬ (i : Int) < dc - 1 := by simp at hi; omega
      have ha : rd path i = a := rd_of_drop hp
      have hp1 := drop_succ_of_drop hp
      simp only [List.length_cons, List.length_nil] at ho
      rw [forLoop, if_pos h1, if_neg h2, ha]
      rw [ih (i + 1) _ [b] post (by simp at hf ⊢; omega) (by simp at hi ⊢; omega)
        (by simpa using hp1) (by simp [length_wr]; omega)]
      simp only [greedyScan, greedyHit]
      rw [splice_wr _ _ _ _ (by omega)]
      simp
    | a :: b :: c :: rest, hf, hi, hp, ho =>
      have h1 : (i : Int) ≤ dc := by simp at hi; omega
      have h2 : (i : Int) < dc - 1 := by simp at hi; omega
      have ha : rd path i = a := rd_of_drop hp
      have hp1 : path.drop (i + 1) = b :: c :: rest ++ post := drop_succ_of_drop hp
      have hb : rd path (i + 1) = b := rd_of_drop hp1
      have hp2 : path.drop (i + 2) = c :: rest ++ post := drop_succ_of_drop hp1
      have hc : rd path (i + 2) = c := rd_of_drop hp2
      have hp3 : path.drop (i + 3) = rest ++ post := drop_succ_of_drop hp2
      simp only [List.length_cons] at ho hf
      rw [forLoop, if_pos h1, if_pos h2, ha, hb, hc, matchTriplet_eq]
      rw [greedyScan, greedyHit]
      cases hl : tableLookup a b c with
      | none =>
        simp only []
        rw [ih (i + 1) _ (b :: c :: rest) post (by simp; omega) (by simp at hi ⊢; omega)
          hp1 (by simp [length_wr]; omega)]
        simp only []
        rw [splice_wr _ _ _ _ (by omega)]
        simp
        omega
      | some r =>
        simp only []
        rw [ih (i + 3) _ rest post (by omega) (by simp at hi ⊢; omega)
          hp3 (by simp [length_wr]; omega)]
        simp only []
        rw [splice_wr _ _ _ _ (by omega)]
        simp
        omega

theorem scanPass_eq (path opt : List Char) (dc : Int) (hd : -1 ≤ dc)
    (hp : (dc + 1).toNat ≤ path.length) (ho : (dc + 1).toNat ≤ opt.length) :
    scanPass path opt dc =
      some ⟨greedyScan (path.take (dc + 1).toNat) ++
              opt.drop (greedyScan (path.take (dc + 1).toNat)).length,
            (greedyScan (path.take (dc + 1).toNat)).length,
            greedyHit (path.take (dc + 1).toNat)⟩ := by
  have hlen : (path.take (dc + 1).toNat).length = (dc + 1).toNat := by
    simp [List.length_take, hp]
  have h := forLoop_scan path dc (dc + 1).toNat 0 ⟨opt, 0, false⟩
    (path.take (dc + 1).toNat) (path.drop (dc + 1).toNat)
    (by rw [hlen]) (by rw [hlen]; simp; omega)
    (by simp) (by simp only [hlen]; omega)
  unfold scanPass
  rw [h]
  simp

theorem copyBack_eq (opt : List Char) :
    ∀ (n : Nat) (path : List Char), n ≤ opt.length → n ≤ path.length →
      copyBack opt n path = opt.take n ++ path.drop n := by
  intro n
  induction n with
  | zero => intro path _ _; simp [copyBack]
  | succ n ih =>
    intro path ho hp
    have h := ih path (by omega) (by omega)
    unfold copyBack at h ⊢
    rw [List.range_succ, List.foldl_append, h]
    simp only [List.foldl_cons, List.foldl_nil]
    have hn : n < opt.length := by omega
    have hr : rd opt n = opt[n] := by
      simp [rd, List.getD, List.getElem?_eq_getElem hn]
    rw [hr]
    unfold wr
    have hl : (opt.take n).length = n := by simp [List.length_take]; omega
    rw [List.set_append_right _ _ (by omega), hl, Nat.sub_self]
    have hd : path.drop n = path[n] :: path.drop (n + 1) := by
      rw [List.drop_eq_getElem_cons (by omega)]
    rw [hd, List.set_cons_zero, List.take_succ, List.getElem?_eq_getElem hn]
    simp only [Option.toList_some, List.append_assoc, List.singleton_append]

theorem countU_eq (opt : List Char) :
    ∀ n : Nat, n ≤ opt.length → countU opt n = (opt.take n).count 'U' := by
  intro n
  induction n with
  | zero => intro _; simp [countU]
  | succ n ih =>
    intro ho
    have h := ih (by omega)
    unfold countU at h ⊢
    rw [List.range_succ, List.foldl_append, h]
    have hn : n < opt.length := by omega
    have hr : rd opt n = opt[n] := by
      simp [rd, List.getD, List.getElem?_eq_getElem hn]
    simp only [List.foldl_cons, List.foldl_nil, hr]
    rw [List.take_succ, List.getElem?_eq_getElem hn]
    simp only [Option.toList_some, List.count_append, List.count_cons, List.count_nil]
    by_cases hu : opt[n] = 'U' <;> simp [hu]

theorem history_length (s : OptState) (h : InCapacity s) :
    (history s).length = (s.decisionCount + 1).toNat := by
  obtain ⟨hp, _, hd, hc⟩ := h
  unfold history
  rw [List.length_take, hp]
  unfold MAX_DECISIONS at *
  omega

/-- One execution of the body of `while (simplified)` in terms of the
reference scan `out` of the recorded history: both buffers get `out` in their
first cells; the loop ends with `decisionCount = |out| - 1` when `out` has no
`'U'`, and otherwise goes on, `decisionCount` untouched, exactly when a
triplet was rewritten. -/
theorem whileBody_eq (s : OptState) (h : InCapacity s) :
    whileBody s =
      some (if 'U' ∈ greedyScan (history s) then
              (greedyHit (history s),
                ⟨greedyScan (history s) ++ s.path.drop (greedyScan (history s)).length,
                 greedyScan (history s) ++ s.optimizedPath.drop (greedyScan (history s)).length,
                 s.decisionCount⟩)
            else
              (false,
                ⟨greedyScan (history s) ++ s.path.drop (greedyScan (history s)).length,
                 greedyScan (history s) ++ s.optimizedPath.drop (greedyScan (history s)).length,
                 ((greedyScan (history s)).length : Int) - 1⟩)) := by
  have hlen := history_length s h
  obtain ⟨hp, ho, hd, hc⟩ := h
  have hn : (s.decisionCount + 1).toNat ≤ MAX_DECISIONS := by
    unfold MAX_DECISIONS at *; omega
  have hle := greedyScan_length_le (history s)
  have hh : s.path.take (s.decisionCount + 1).toNat = history s := rfl
  unfold whileBody
  rw [scanPass_eq s.path s.optimizedPath s.decisionCount hd (by omega) (by omega), hh]
  simp only []
  generalize greedyScan (history s) = out at hle ⊢
  generalize greedyHit (history s) = hit
  have hl2 : out.length ≤ (out ++ s.optimizedPath.drop out.length).length := by
    simp
  rw [countU_eq _ _ hl2, copyBack_eq _ _ _ hl2 (by omega)]
  simp only [List.take_left, List.count_eq_zero]
  by_cases hu : 'U' ∈ out <;> simp [hu]

theorem whileBody_inCapacity (s : OptState) (h : InCapacity s) (b : Bool) (s' : OptState)
    (hb : whileBody s = some (b, s')) : InCapacity s' := by
  have hlen := history_length s h
  have hle := greedyScan_length_le (history s)
  rw [whileBody_eq s h] at hb
  obtain ⟨hp, ho, hd, hc⟩ := h
  have hn : (s.decisionCount + 1).toNat ≤ MAX_DECISIONS := by
    unfold MAX_DECISIONS at *; omega
  have e1 : (greedyScan (history s) ++ s.path.drop (greedyScan (history s)).length).length
      = MAX_DECISIONS := by
    rw [List.length_append, List.length_drop]; omega
  have e2 : (greedyScan (history s) ++
      s.optimizedPath.drop (greedyScan (history s)).length).length = MAX_DECISIONS := by
    rw [List.length_append, List.length_drop]; omega
  split at hb
  · simp only [Option.some.injEq, Prod.mk.injEq] at hb
    obtain ⟨_, rfl⟩ := hb
    exact ⟨e1, e2, hd, hc⟩
  · simp only [Option.some.injEq, Prod.mk.injEq] at hb
    obtain ⟨_, rfl⟩ := hb
    refine ⟨e1, e2, ?_, ?_⟩
    · show (-1 : Int) ≤ ((greedyScan (history s)).length : Int) - 1
      omega
    · show ((greedyScan (history s)).length : Int) - 1 < MAX_DECISIONS
      omega

theorem whileLoop_mono : ∀ (fuel : Nat) (s r : OptState),
    whileLoop fuel s = some r → ∀ k : Nat, whileLoop (fuel + k) s = some r := by
  intro fuel
  induction fuel with
  | zero => intro s r h; simp [whileLoop] at h
  | succ fuel ih =>
    intro s r h k
    rw [show fuel + 1 + k = (fuel + k) + 1 by omega]
    rw [whileLoop] at h ⊢
    cases hb : whileBody s with
    | none => rw [hb] at h; simp at h
    | some p =>
      obtain ⟨b, s'⟩ := p
      rw [hb] at h
      cases b with
      | true => exact ih s' r h k
      | false => exact h

theorem whileLoop_unique (f g : Nat) (s r r' : OptState)
    (h : whileLoop f s = some r) (h' : whileLoop g s = some r') : r = r' := by
  have e1 := whileLoop_mono f s r h g
  have e2 := whileLoop_mono g s r' h' f
  rw [Nat.add_comm] at e2
  rw [e1] at e2
  exact Option.some.inj e2

/-! ## Facts about the triplet rules and the reference scan -/

theorem matchTriplet_middle (a b c r : Char) (h : matchTriplet a b c = some r) : b = 'U' := by
  unfold matchTriplet at h
  split_ifs at h with h1 h2 h3 h4 h5 h6 h7 h8 h9
  all_goals
    obtain ⟨_, hb, _⟩ := ‹_ ∧ _›
    exact hb

theorem matchTriplet_turns (a b c r : Char) (h : matchTriplet a b c = some r) :
    (quarterTurns a + quarterTurns b + quarterTurns c) % 4 = quarterTurns r % 4 := by
  unfold matchTriplet at h
  split_ifs at h with h1 h2 h3 h4 h5 h6 h7 h8 h9
  all_goals
    obtain ⟨rfl, rfl, rfl⟩ := ‹_ ∧ _›
    obtain rfl := Option.some.inj h
    decide

theorem greedyHit_false_of_not_mem : ∀ xs : List Char, 'U' ∉ xs → greedyHit xs = false
  | a :: b :: c :: rest => by
    intro h
    rw [greedyHit]
    cases hl : tableLookup a b c with
    | some r =>
      rw [← matchTriplet_eq] at hl
      have := matchTriplet_middle a b c r hl
      subst this
      simp at h
    | none =>
      simp only []
      exact greedyHit_false_of_not_mem (b :: c :: rest) (fun hm => h (List.mem_cons_of_mem _ hm))
  | [_, _] => by intro _; simp [greedyHit]
  | [_] => by intro _; simp [greedyHit]
  | [] => by intro _; simp [greedyHit]

theorem greedyScan_of_no_hit : ∀ xs : List Char, greedyHit xs = false → greedyScan xs = xs
  | a :: b :: c :: rest => by
    intro h
    rw [greedyHit] at h
    rw [greedyScan]
    cases hl : tableLookup a b c with
    | some r => rw [hl] at h; simp at h
    | none =>
      rw [hl] at h
      simp only [] at h ⊢
      rw [greedyScan_of_no_hit (b :: c :: rest) h]
  | [_, _] => by intro _; simp [greedyScan]
  | [_] => by intro _; simp [greedyScan]
  | [] => by intro _; simp [greedyScan]

theorem no_triplet_of_no_hit : ∀ (xs : List Char), greedyHit xs = false →
    ∀ i : Nat, i + 2 < xs.length →
      tableLookup (rd xs i) (rd xs (i + 1)) (rd xs (i + 2)) = none
  | a :: b :: c :: rest => by
    intro h i hi
    rw [greedyHit] at h
    cases hl : tableLookup a b c with
    | some r => rw [hl] at h; simp at h
    | none =>
      rw [hl] at h
      simp only [] at h
      cases i with
      | zero => simpa [rd] using hl
      | succ i =>
        have := no_triplet_of_no_hit (b :: c :: rest) h i (by simp at hi ⊢; omega)
        simpa [rd] using this
  | [_, _] => by intro _ i hi; simp at hi
  | [_] => by intro _ i hi; simp at hi
  | [] => by intro _ i hi; simp at hi

theorem heading_greedyScan : ∀ xs : List Char, heading (greedyScan xs) = heading xs
  | a :: b :: c :: rest => by
    rw [greedyScan]
    have h1 := heading_greedyScan rest
    have h2 := heading_greedyScan (b :: c :: rest)
    unfold heading at *
    cases hl : tableLookup a b c with
    | some r =>
      rw [← matchTriplet_eq] at hl
      have ht := matchTriplet_turns a b c r hl
      simp only [List.map_cons, List.sum_cons] at *
      omega
    | none =>
      simp only [List.map_cons, List.sum_cons] at *
      omega
  | [_, _] => by simp [greedyScan]
  | [_] => by simp [greedyScan]
  | [] => by simp [greedyScan]

theorem rd_append_left (xs ys : List Char) (i : Nat) (h : i < xs.length) :
    rd (xs ++ ys) i = rd xs i := by
  simp [rd, List.getD, List.getElem?_append_left h]

theorem rd_mem (xs : List Char) (i : Nat) (h : i < xs.length) : rd xs i ∈ xs := by
  simp [rd, List.getD, List.getElem?_eq_getElem h]

theorem rd_take (xs : List Char) (n i : Nat) (h : i < n) : rd (xs.take n) i = rd xs i := by
  simp [rd, List.getD, List.getElem?_take_of_lt h]

/-! ## The optimizer: termination and result -/

/-- C1 (fails on the code): on the recorded history `[L,U,S,U,S]` the loop
`while (simplified)` of `optimizePath` never ends. The first pass rewrites
`L,U,S` to `R` and leaves `[R,U,S,U,S]` in `path`; since `decisionCount` is
still 4 the next pass scans all five cells again, rewrites `R,U,S` to `L`
and restores `[L,U,S,U,S]`; every pass sets `simplified` and emits a `'U'`,
so no bound on the number of passes lets `optimizePath` return. -/
theorem optimizePath_diverges_on_LUSUS :
    InCapacity (recorded ['L', 'U', 'S', 'U', 'S']) ∧
    whileBody (recorded ['L', 'U', 'S', 'U', 'S']) =
      some (true, ⟨mkBuffer ['R', 'U', 'S', 'U', 'S'], mkBuffer ['R', 'U', 'S'], 4⟩) ∧
    whileBody ⟨mkBuffer ['R', 'U', 'S', 'U', 'S'], mkBuffer ['R', 'U', 'S'], 4⟩ =
      some (true, ⟨mkBuffer ['L', 'U', 'S', 'U', 'S'], mkBuffer ['L', 'U', 'S'], 4⟩) ∧
    whileBody ⟨mkBuffer ['L', 'U', 'S', 'U', 'S'], mkBuffer ['L', 'U', 'S'], 4⟩ =
      some (true, ⟨mkBuffer ['R', 'U', 'S', 'U', 'S'], mkBuffer ['R', 'U', 'S'], 4⟩) ∧
    ∀ fuel : Nat, optimizePath fuel (recorded ['L', 'U', 'S', 'U', 'S']) = none := by
  have h0 : whileBody (recorded ['L', 'U', 'S', 'U', 'S']) =
      some (true, ⟨mkBuffer ['R', 'U', 'S', 'U', 'S'], mkBuffer ['R', 'U', 'S'], 4⟩) := by
    decide
  have h1 : whileBody ⟨mkBuffer ['R', 'U', 'S', 'U', 'S'], mkBuffer ['R', 'U', 'S'], 4⟩ =
      some (true, ⟨mkBuffer ['L', 'U', 'S', 'U', 'S'], mkBuffer ['L', 'U', 'S'], 4⟩) := by
    decide
  have h2 : whileBody ⟨mkBuffer ['L', 'U', 'S', 'U', 'S'], mkBuffer ['L', 'U', 'S'], 4⟩ =
      some (true, ⟨mkBuffer ['R', 'U', 'S', 'U', 'S'], mkBuffer ['R', 'U', 'S'], 4⟩) := by
    decide
  have hloop : ∀ fuel : Nat,
      whileLoop fuel ⟨mkBuffer ['R', 'U', 'S', 'U', 'S'], mkBuffer ['R', 'U', 'S'], 4⟩ = none ∧
      whileLoop fuel ⟨mkBuffer ['L', 'U', 'S', 'U', 'S'], mkBuffer ['L', 'U', 'S'], 4⟩ = none := by
    intro fuel
    induction fuel with
    | zero => exact ⟨rfl, rfl⟩
    | succ n ih =>
      constructor
      · rw [whileLoop, h1]; exact ih.2
      · rw [whileLoop, h2]; exact ih.1
  refine ⟨by decide, h0, h1, h2, ?_⟩
  intro fuel
  cases fuel with
  | zero => rfl
  | succ n =>
    unfold optimizePath
    rw [whileLoop, h0]
    exact (hloop n).1

/-- C2 (as stated, fails): on the one-entry history `[U]` no triplet can be
rewritten, the loop ends because `simplified` stays false, and the optimized
path `optimizePath` leaves is `[U]`. -/
theorem optimizePath_keeps_lone_U :
    InCapacity (recorded ['U']) ∧
    ∃ r, optimizePath 1 (recorded ['U']) = some r ∧ r.decisionCount = 0 ∧
      rd r.optimizedPath 0 = 'U' := by
  refine ⟨by decide, ⟨mkBuffer ['U'], mkBuffer ['U'], 0⟩, by decide, rfl, by decide⟩

/-- C2 (amended): whenever `optimizePath` returns, either no cell of
`optimizedPath` at an index `0 .. decisionCount` is `'U'`, or the optimized
path is irreducible: no three consecutive cells of `optimizedPath` inside
`0 .. decisionCount` fire a branch of the rewriting chain. -/
theorem optimizePath_Ufree_or_irreducible (fuel : Nat) (s r : OptState)
    (h : InCapacity s) (hr : optimizePath fuel s = some r) :
    (∀ i : Nat, (i : Int) ≤ r.decisionCount → rd r.optimizedPath i ≠ 'U') ∨
    (∀ i : Nat, (i : Int) + 2 ≤ r.decisionCount →
      matchTriplet (rd r.optimizedPath i) (rd r.optimizedPath (i + 1))
        (rd r.optimizedPath (i + 2)) = none) := by
  unfold optimizePath at hr
  induction fuel generalizing s with
  | zero => simp [whileLoop] at hr
  | succ fuel ih =>
    have hcap := whileBody_inCapacity s h
    have hlen := history_length s h
    rw [whileLoop] at hr
    rw [whileBody_eq s h] at hr hcap
    by_cases hu : 'U' ∈ greedyScan (history s)
    · rw [if_pos hu] at hr hcap
      cases hh : greedyHit (history s) with
      | true =>
        rw [hh] at hr hcap
        exact ih _ (hcap true _ rfl) hr
      | false =>
        rw [hh] at hr
        obtain rfl := Option.some.inj hr
        right
        intro i hi
        simp only [] at hi ⊢
        rw [greedyScan_of_no_hit _ hh]
        have hi2 : i + 2 < (history s).length := by omega
        rw [rd_append_left _ _ _ (by omega), rd_append_left _ _ _ (by omega),
          rd_append_left _ _ _ hi2, matchTriplet_eq]
        exact no_triplet_of_no_hit _ hh i hi2
    · rw [if_neg hu] at hr
      obtain rfl := Option.some.inj hr
      left
      intro i hi
      simp only [] at hi ⊢
      have hi2 : i < (greedyScan (history s)).length := by omega
      rw [rd_append_left _ _ _ hi2]
      intro he
      exact hu (he ▸ rd_mem _ _ hi2)

theorem optimizePath_Ufree_or_irreducible_witness :
    InCapacity (recorded ['S', 'U', 'L', 'S']) ∧
    optimizePath 1 (recorded ['S', 'U', 'L', 'S']) =
      some ⟨mkBuffer ['R', 'S', 'L', 'S'], mkBuffer ['R', 'S'], 1⟩ ∧
    ((∀ i : Nat, (i : Int) ≤ 1 → rd (mkBuffer ['R', 'S']) i ≠ 'U') ∨
     (∀ i : Nat, (i : Int) + 2 ≤ 1 →
      matchTriplet (rd (mkBuffer ['R', 'S']) i) (rd (mkBuffer ['R', 'S']) (i + 1))
        (rd (mkBuffer ['R', 'S']) (i + 2)) = none)) :=
  ⟨by decide, by decide,
    optimizePath_Ufree_or_irreducible 1 (recorded ['S', 'U', 'L', 'S'])
      ⟨mkBuffer ['R', 'S', 'L', 'S'], mkBuffer ['R', 'S'], 1⟩ (by decide) (by decide)⟩

/-- C3: one pass of `optimizePath` is the reference greedy scan. For every
memory within capacity the `for` loop ends and has written the reference
scan of the recorded history into the first `optIndex` cells of
`optimizedPath`, with `simplified` set exactly when a triplet was rewritten;
the branch chain of the code is the table of the nine rules; and on every
three-entry history `[A,'U',B]` of the table the pass emits exactly the one
listed maneuver. -/
theorem scanPass_eq_greedyScan (s : OptState) (h : InCapacity s) :
    (∃ st, scanPass s.path s.optimizedPath s.decisionCount = some st ∧
      st.optimizedPath.take st.optIndex = greedyScan (history s) ∧
      st.optIndex = (greedyScan (history s)).length ∧
      st.simplified = greedyHit (history s)) ∧
    (∀ a b c : Char, matchTriplet a b c = tableLookup a b c) ∧
    (∀ a b c : Char, ((a, 'U', b), c) ∈ rewriteTable →
      scanPass (recorded [a, 'U', b]).path (recorded [a, 'U', b]).optimizedPath 2 =
        some ⟨mkBuffer [c], 1, true⟩) := by
  refine ⟨?_, matchTriplet_eq, ?_⟩
  · have hlen := history_length s h
    obtain ⟨hp, ho, hd, hc⟩ := h
    have hn : (s.decisionCount + 1).toNat ≤ MAX_DECISIONS := by
      unfold MAX_DECISIONS at *; omega
    refine ⟨_, scanPass_eq s.path s.optimizedPath s.decisionCount hd (by omega) (by omega),
      ?_, rfl, rfl⟩
    simp [history]
  · intro a b c hm
    simp only [rewriteTable, List.mem_cons, Prod.mk.injEq, List.mem_nil_iff, or_false] at hm
    rcases hm with hm | hm | hm | hm | hm | hm | hm | hm | hm <;>
      (obtain ⟨⟨rfl, -, rfl⟩, rfl⟩ := hm; decide)

theorem scanPass_eq_greedyScan_witness :
    InCapacity (recorded ['S', 'S', 'L', 'U', 'R', 'S', 'S']) ∧
    greedyScan (history (recorded ['S', 'S', 'L', 'U', 'R', 'S', 'S'])) =
      ['S', 'S', 'U', 'S', 'S'] ∧
    ∃ st, scanPass (recorded ['S', 'S', 'L', 'U', 'R', 'S', 'S']).path
        (recorded ['S', 'S', 'L', 'U', 'R', 'S', 'S']).optimizedPath
        (recorded ['S', 'S', 'L', 'U', 'R', 'S', 'S']).decisionCount = some st ∧
      st.optimizedPath.take st.optIndex =
        greedyScan (history (recorded ['S', 'S', 'L', 'U', 'R', 'S', 'S'])) ∧
      st.optIndex = (greedyScan (history (recorded ['S', 'S', 'L', 'U', 'R', 'S', 'S']))).length ∧
      st.simplified = greedyHit (history (recorded ['S', 'S', 'L', 'U', 'R', 'S', 'S'])) :=
  ⟨by decide, by decide,
    (scanPass_eq_greedyScan (recorded ['S', 'S', 'L', 'U', 'R', 'S', 'S']) (by decide)).1⟩

/-- C4 (fails on the code): `optimizePath` on the recorded history
`[L,U,L,U,L]` does not return `[R]` with `decisionCount = 0`. Its first pass
emits `[S,U,L]`, but `decisionCount` stays 4, so the later passes scan the
stale cells `U,L` behind the copied entries again; the seventh pass rewrites
nothing and the function returns `[U,U,U,U,L]` with `decisionCount = 4`.
Two reference scans, the second on the three entries the first emits, give
`[R]`. -/
theorem optimizePath_LULUL :
    InCapacity (recorded ['L', 'U', 'L', 'U', 'L']) ∧
    (∀ fuel : Nat, optimizePath (fuel + 7) (recorded ['L', 'U', 'L', 'U', 'L']) =
      some ⟨mkBuffer ['U', 'U', 'U', 'U', 'L'], mkBuffer ['U', 'U', 'U', 'U', 'L'], 4⟩) ∧
    (∀ fuel : Nat, optimizePath fuel (recorded ['L', 'U', 'L', 'U', 'L']) = none ∨
      optimizePath fuel (recorded ['L', 'U', 'L', 'U', 'L']) =
        some ⟨mkBuffer ['U', 'U', 'U', 'U', 'L'], mkBuffer ['U', 'U', 'U', 'U', 'L'], 4⟩) ∧
    greedyScan (greedyScan ['L', 'U', 'L', 'U', 'L']) = ['R'] := by
  have h7 : whileLoop 7 (recorded ['L', 'U', 'L', 'U', 'L']) =
      some ⟨mkBuffer ['U', 'U', 'U', 'U', 'L'], mkBuffer ['U', 'U', 'U', 'U', 'L'], 4⟩ := by
    decide
  refine ⟨by decide, ?_, ?_, by decide⟩
  · intro fuel
    unfold optimizePath
    rw [Nat.add_comm]
    exact whileLoop_mono 7 _ _ h7 fuel
  · intro fuel
    unfold optimizePath
    cases hf : whileLoop fuel (recorded ['L', 'U', 'L', 'U', 'L']) with
    | none => exact Or.inl rfl
    | some r => exact Or.inr (congrArg some (whileLoop_unique _ _ _ _ _ hf h7))

theorem history_not_mem_U (s : OptState) (h : InCapacity s)
    (hu : ∀ i : Nat, (i : Int) ≤ s.decisionCount → rd s.path i ≠ 'U') :
    'U' ∉ history s := by
  have hlen := history_length s h
  intro hm
  obtain ⟨i, hi, he⟩ := List.getElem_of_mem hm
  have h1 : rd (history s) i = 'U' := by
    simp [rd, List.getD, List.getElem?_eq_getElem hi, he]
  have h2 : rd (history s) i = rd s.path i := by
    unfold history
    exact rd_take _ _ _ (by omega)
  exact hu i (by omega) (h2 ▸ h1)

/-- C5: optimizer idempotence. On a memory within capacity whose recorded
history has no `'U'` at the indices `0 .. decisionCount` (the empty history,
`decisionCount = -1`, included) the first execution of the loop body ends the
loop, so `optimizePath` returns after one pass; `path` and `decisionCount`
are unchanged, `optimizedPath` holds the history at the indices
`0 .. decisionCount`, and `optimizePath` applied to the memory it returned
returns that memory unchanged. -/
theorem optimizePath_idempotent (s : OptState) (h : InCapacity s)
    (hu : ∀ i : Nat, (i : Int) ≤ s.decisionCount → rd s.path i ≠ 'U') :
    ∃ r, whileBody s = some (false, r) ∧
      (∀ fuel : Nat, optimizePath (fuel + 1) s = some r) ∧
      r.path = s.path ∧ r.decisionCount = s.decisionCount ∧
      (∀ i : Nat, (i : Int) ≤ s.decisionCount → rd r.optimizedPath i = rd s.path i) ∧
      (∀ fuel : Nat, optimizePath (fuel + 1) r = some r) := by
  have key : ∀ t : OptState, InCapacity t → 'U' ∉ history t →
      whileBody t = some (false,
        ⟨t.path, history t ++ t.optimizedPath.drop (history t).length, t.decisionCount⟩) := by
    intro t ht hn
    have hlen := history_length t ht
    have hs := greedyScan_of_no_hit _ (greedyHit_false_of_not_mem _ hn)
    rw [whileBody_eq t ht, hs, if_neg hn]
    obtain ⟨_, _, hd, _⟩ := ht
    have e1 : history t ++ t.path.drop (history t).length = t.path := by
      rw [hlen]; unfold history; exact List.take_append_drop _ _
    have e2 : ((history t).length : Int) - 1 = t.decisionCount := by omega
    rw [e1, e2]
  have loop : ∀ (t r : OptState), whileBody t = some (false, r) →
      ∀ fuel : Nat, optimizePath (fuel + 1) t = some r := by
    intro t r ht fuel
    unfold optimizePath
    rw [whileLoop, ht]
  have hn := history_not_mem_U s h hu
  have hlen := history_length s h
  have hb := key s h hn
  refine ⟨_, hb, loop _ _ hb, rfl, rfl, ?_, ?_⟩
  · intro i hi
    show rd (history s ++ _) i = rd s.path i
    rw [rd_append_left _ _ _ (by omega)]
    unfold history
    exact rd_take _ _ _ (by omega)
  · have hcap := whileBody_inCapacity s h _ _ hb
    have hh : history ⟨s.path, history s ++ s.optimizedPath.drop (history s).length,
        s.decisionCount⟩ = history s := rfl
    have hb2 := key _ hcap (by rw [hh]; exact hn)
    rw [hh] at hb2
    simp only [List.drop_left] at hb2
    exact loop _ _ hb2

theorem optimizePath_idempotent_witness :
    InCapacity (recorded ['S', 'L', 'R']) ∧
    (∀ i : Nat, (i : Int) ≤ (recorded ['S', 'L', 'R']).decisionCount →
      rd (recorded ['S', 'L', 'R']).path i ≠ 'U') ∧
    optimizePath 1 (recorded ['S', 'L', 'R']) =
      some ⟨mkBuffer ['S', 'L', 'R'], mkBuffer ['S', 'L', 'R'], 2⟩ ∧
    ∃ r, whileBody (recorded ['S', 'L', 'R']) = some (false, r) ∧
      (∀ fuel : Nat, optimizePath (fuel + 1) (recorded ['S', 'L', 'R']) = some r) ∧
      r.path = (recorded ['S', 'L', 'R']).path ∧
      r.decisionCount = (recorded ['S', 'L', 'R']).decisionCount ∧
      (∀ i : Nat, (i : Int) ≤ (recorded ['S', 'L', 'R']).decisionCount →
        rd r.optimizedPath i = rd (recorded ['S', 'L', 'R']).path i) ∧
      (∀ fuel : Nat, optimizePath (fuel + 1) r = some r) :=
  have hu : ∀ i : Nat, (i : Int) ≤ (recorded ['S', 'L', 'R']).decisionCount →
      rd (recorded ['S', 'L', 'R']).path i ≠ 'U' := by
    intro i hi
    have h2 : i ≤ 2 := by
      have : (recorded ['S', 'L', 'R']).decisionCount = 2 := by decide
      omega
    interval_cases i <;> decide
  ⟨by decide, hu, by decide, optimizePath_idempotent (recorded ['S', 'L', 'R']) (by decide) hu⟩

/-- C6 (as stated, fails): `optimizePath` never returns, on the recorded
history `[S,S,L,U,R,S,S]`, a memory with `decisionCount = 4` whose optimized
path has no `'U'` at the indices `0 .. 4`. -/
theorem optimizePath_SSLURSS_not_Ufree_of_length_5 :
    ¬ ∃ (fuel : Nat) (r : OptState),
      optimizePath fuel (recorded ['S', 'S', 'L', 'U', 'R', 'S', 'S']) = some r ∧
      r.decisionCount = 4 ∧
      ∀ i : Nat, (i : Int) ≤ r.decisionCount → rd r.optimizedPath i ≠ 'U' := by
  rintro ⟨fuel, r, hr, hd, -⟩
  have h4 : whileLoop 4 (recorded ['S', 'S', 'L', 'U', 'R', 'S', 'S']) =
      some ⟨mkBuffer ['U', 'S', 'S', 'S', 'S', 'S', 'S'],
        mkBuffer ['U', 'S', 'S', 'S', 'S', 'S', 'S'], 6⟩ := by
    decide
  have := whileLoop_unique _ _ _ _ _ hr h4
  subst this
  exact absurd hd (by decide)

/-- C6 (amended): on the recorded history `[S,S,L,U,R,S,S]` the first pass of
`optimizePath` rewrites `L,U,R` to `'U'` and emits the five entries
`[S,S,U,S,S]`, which still hold a `'U'`, so the loop goes on; `optimizePath`
returns, and the optimized path it returns is not free of `'U'`:
`optimizedPath[0]` is `'U'`. -/
theorem optimizePath_SSLURSS :
    InCapacity (recorded ['S', 'S', 'L', 'U', 'R', 'S', 'S']) ∧
    scanPass (recorded ['S', 'S', 'L', 'U', 'R', 'S', 'S']).path
        (recorded ['S', 'S', 'L', 'U', 'R', 'S', 'S']).optimizedPath 6 =
      some ⟨mkBuffer ['S', 'S', 'U', 'S', 'S'], 5, true⟩ ∧
    (∃ s', whileBody (recorded ['S', 'S', 'L', 'U', 'R', 'S', 'S']) = some (true, s')) ∧
    ∃ r, (∀ fuel : Nat,
        optimizePath (fuel + 4) (recorded ['S', 'S', 'L', 'U', 'R', 'S', 'S']) = some r) ∧
      0 ≤ r.decisionCount ∧ rd r.optimizedPath 0 = 'U' := by
  have h4 : whileLoop 4 (recorded ['S', 'S', 'L', 'U', 'R', 'S', 'S']) =
      some ⟨mkBuffer ['U', 'S', 'S', 'S', 'S', 'S', 'S'],
        mkBuffer ['U', 'S', 'S', 'S', 'S', 'S', 'S'], 6⟩ := by
    decide
  refine ⟨by decide, by decide, ⟨⟨mkBuffer ['S', 'S', 'U', 'S', 'S', 'S', 'S'],
    mkBuffer ['S', 'S', 'U', 'S', 'S'], 6⟩, by decide⟩,
    ⟨mkBuffer ['U', 'S', 'S', 'S', 'S', 'S', 'S'],
      mkBuffer ['U', 'S', 'S', 'S', 'S', 'S', 'S'], 6⟩, ?_, by decide, by decide⟩
  intro fuel
  unfold optimizePath
  rw [Nat.add_comm]
  exact whileLoop_mono 4 _ _ h4 fuel

/-- C7: the rewriting preserves the net heading. With the quarter turns
`S = 0`, `R = 1`, `U = 2`, `L = 3`, every branch of the rewriting chain that
fires on `A, U, B` stores a `C` with `A + U + B ≡ C (mod 4)`, and for every
memory within capacity the entries one pass of `optimizePath` emits have the
heading of the recorded history. -/
theorem scanPass_preserves_heading (s : OptState) (h : InCapacity s) :
    (∀ a b c r : Char, matchTriplet a b c = some r →
      (quarterTurns a + quarterTurns b + quarterTurns c) % 4 = quarterTurns r % 4) ∧
    ∃ st, scanPass s.path s.optimizedPath s.decisionCount = some st ∧
      heading (st.optimizedPath.take st.optIndex) = heading (history s) := by
  refine ⟨matchTriplet_turns, ?_⟩
  have hlen := history_length s h
  obtain ⟨hp, ho, hd, hc⟩ := h
  have hn : (s.decisionCount + 1).toNat ≤ MAX_DECISIONS := by
    unfold MAX_DECISIONS at *; omega
  refine ⟨_, scanPass_eq s.path s.optimizedPath s.decisionCount hd (by omega) (by omega), ?_⟩
  simp only [List.take_left]
  exact heading_greedyScan _

theorem scanPass_preserves_heading_witness :
    InCapacity (recorded ['R', 'U', 'L', 'L', 'U', 'S']) ∧
    matchTriplet 'R' 'U' 'L' = some 'U' ∧
    heading (history (recorded ['R', 'U', 'L', 'L', 'U', 'S'])) = 3 ∧
    ((∀ a b c r : Char, matchTriplet a b c = some r →
      (quarterTurns a + quarterTurns b + quarterTurns c) % 4 = quarterTurns r % 4) ∧
    ∃ st, scanPass (recorded ['R', 'U', 'L', 'L', 'U', 'S']).path
        (recorded ['R', 'U', 'L', 'L', 'U', 'S']).optimizedPath
        (recorded ['R', 'U', 'L', 'L', 'U', 'S']).decisionCount = some st ∧
      heading (st.optimizedPath.take st.optIndex) =
        heading (history (recorded ['R', 'U', 'L', 'L', 'U', 'S']))) :=
  ⟨by decide, by decide, by decide,
    scanPass_preserves_heading (recorded ['R', 'U', 'L', 'L', 'U', 'S']) (by decide)⟩

/-! ## The exploration cycle: rules and recording -/

/-- C8: wall-following priority. `rightHandRule` returns `'R'` if `rightMem`,
else `'S'` if `centerMem`, else `'L'` if `leftMem`, else `'U'`;
`leftHandRule` returns `'L'` if `leftMem`, else `'S'` if `centerMem`, else
`'R'` if `rightMem`, else `'U'`; each stores the returned value in `decision`
and changes nothing else. With all three present the right-hand rule yields
`'R'` and the left-hand rule `'L'`, and either rule yields `'U'` exactly when
none of the three is present. -/
theorem wallFollowing_priority (g : Globals) :
    (rightHandRule g).1 =
      (if g.rightMem then 'R' else if g.centerMem then 'S'
        else if g.leftMem then 'L' else 'U') ∧
    (leftHandRule g).1 =
      (if g.leftMem then 'L' else if g.centerMem then 'S'
        else if g.rightMem then 'R' else 'U') ∧
    (rightHandRule g).2 = { g with decision := (rightHandRule g).1 } ∧
    (leftHandRule g).2 = { g with decision := (leftHandRule g).1 } ∧
    (g.leftMem = true ∧ g.centerMem = true ∧ g.rightMem = true →
      (rightHandRule g).1 = 'R' ∧ (leftHandRule g).1 = 'L') ∧
    ((rightHandRule g).1 = 'U' ↔
      g.leftMem = false ∧ g.centerMem = false ∧ g.rightMem = false) ∧
    ((leftHandRule g).1 = 'U' ↔
      g.leftMem = false ∧ g.centerMem = false ∧ g.rightMem = false) := by
  obtain ⟨rh, l, c, r, d, dm, hist, dc⟩ := g
  cases l <;> cases c <;> cases r <;> simp [rightHandRule, leftHandRule]

theorem wallFollowing_priority_witness :
    (rightHandRule ⟨true, true, true, true, nul, nul, mkBuffer [], -1⟩).1 = 'R' ∧
    (leftHandRule ⟨true, true, true, true, nul, nul, mkBuffer [], -1⟩).1 = 'L' :=
  (wallFollowing_priority ⟨true, true, true, true, nul, nul, mkBuffer [], -1⟩).2.2.2.2.1
    ⟨rfl, rfl, rfl⟩

/-- C9: the recording rule. In the recording step of an exploration cycle
whose next cell `decisionCount + 1` lies inside `decisionHistory`,
`decisionCount` is incremented by one exactly when `decision` is `'U'`, or
`centerMem` and (`leftMem` or `rightMem`), or `leftMem` and `rightMem` and
`decision` is `'L'` or `'R'`; in that case `decision` is stored in the cell
at the new `decisionCount` and every other cell keeps its value; otherwise
`decisionCount` and `decisionHistory` are unchanged. -/
theorem record_iff (g : Globals) (hd : -1 ≤ g.decisionCount)
    (hc : g.decisionCount + 1 < g.decisionHistory.length) :
    ((record g).decisionCount = g.decisionCount + 1 ↔
      (g.decision = 'U' ∨ (g.centerMem = true ∧ (g.leftMem = true ∨ g.rightMem = true)) ∨
        (g.leftMem = true ∧ g.rightMem = true ∧ (g.decision = 'L' ∨ g.decision = 'R')))) ∧
    ((g.decision = 'U' ∨ (g.centerMem = true ∧ (g.leftMem = true ∨ g.rightMem = true)) ∨
        (g.leftMem = true ∧ g.rightMem = true ∧ (g.decision = 'L' ∨ g.decision = 'R'))) →
      (record g).decisionCount = g.decisionCount + 1 ∧
      rd (record g).decisionHistory (record g).decisionCount.toNat = g.decision ∧
      ∀ j : Nat, (j : Int) ≠ (record g).decisionCount →
        rd (record g).decisionHistory j = rd g.decisionHistory j) ∧
    (¬ (g.decision = 'U' ∨ (g.centerMem = true ∧ (g.leftMem = true ∨ g.rightMem = true)) ∨
        (g.leftMem = true ∧ g.rightMem = true ∧ (g.decision = 'L' ∨ g.decision = 'R'))) →
      (record g).decisionCount = g.decisionCount ∧
      (record g).decisionHistory = g.decisionHistory) := by
  have hstore : (store g).decisionCount = g.decisionCount + 1 ∧
      rd (store g).decisionHistory (store g).decisionCount.toNat = g.decision ∧
      ∀ j : Nat, (j : Int) ≠ (store g).decisionCount →
        rd (store g).decisionHistory j = rd g.decisionHistory j := by
    have h0 : (0 : Int) ≤ g.decisionCount + 1 := by omega
    have hlt : (g.decisionCount + 1).toNat < g.decisionHistory.length := by omega
    refine ⟨rfl, ?_, ?_⟩
    · simp [store, wrAt, h0, wr, rd, List.getD, hlt]
    · intro j hj
      have hne : (g.decisionCount + 1).toNat ≠ j := by
        simp only [store] at hj
        omega
      simp [store, wrAt, h0, wr, rd, List.getD, List.getElem?_set_ne hne]
  by_cases h1 : g.decision = 'U'
  · have e : record g = store g := by simp [record, h1]
    rw [e]
    exact ⟨⟨fun _ => Or.inl h1, fun _ => hstore.1⟩, fun _ => hstore,
      fun hn => absurd (Or.inl h1) hn⟩
  · by_cases h2 : g.centerMem = true ∧ (g.leftMem = true ∨ g.rightMem = true)
    · have e : record g = store g := by simp only [record, if_neg h1, if_pos h2]
      rw [e]
      exact ⟨⟨fun _ => Or.inr (Or.inl h2), fun _ => hstore.1⟩, fun _ => hstore,
        fun hn => absurd (Or.inr (Or.inl h2)) hn⟩
    · by_cases h3 : g.leftMem = true ∧ g.rightMem = true ∧
          (g.decision = 'L' ∨ g.decision = 'R')
      · have e : record g = store g := by
          simp only [record, if_neg h1, if_neg h2, if_pos h3]
        rw [e]
        exact ⟨⟨fun _ => Or.inr (Or.inr h3), fun _ => hstore.1⟩, fun _ => hstore,
          fun hn => absurd (Or.inr (Or.inr h3)) hn⟩
      · have e : record g = g := by
          simp only [record, if_neg h1, if_neg h2, if_neg h3]
        rw [e]
        have hno : ¬ (g.decision = 'U' ∨
            (g.centerMem = true ∧ (g.leftMem = true ∨ g.rightMem = true)) ∨
            (g.leftMem = true ∧ g.rightMem = true ∧
              (g.decision = 'L' ∨ g.decision = 'R'))) := by
          rintro (h | h | h)
          · exact h1 h
          · exact h2 h
          · exact h3 h
        refine ⟨⟨fun h => ?_, fun h => absurd h hno⟩, fun h => absurd h hno,
          fun _ => ⟨rfl, rfl⟩⟩
        omega

theorem record_iff_witness :
    (-1 : Int) ≤ (⟨true, true, true, false, 'S', nul, mkBuffer ['L'], 0⟩ : Globals).decisionCount ∧
    ((0 : Int) + 1 < (mkBuffer ['L']).length) ∧
    (record ⟨true, true, true, false, 'S', nul, mkBuffer ['L'], 0⟩).decisionHistory =
      mkBuffer ['L', 'S'] ∧
    ((record ⟨true, true, true, false, 'S', nul, mkBuffer ['L'], 0⟩).decisionCount = 0 + 1 ↔
      (('S' : Char) = 'U' ∨ (true = true ∧ (true = true ∨ false = true)) ∨
        (true = true ∧ false = true ∧ (('S' : Char) = 'L' ∨ ('S' : Char) = 'R')))) :=
  ⟨by decide, by decide, by decide,
    (record_iff ⟨true, true, true, false, 'S', nul, mkBuffer ['L'], 0⟩
      (by decide) (by decide)).1⟩

/-- C10: recording minimality. In an exploration cycle at a junction with
exactly one of `leftMem` / `rightMem` true and `centerMem` false, under the
right-hand or the left-hand rule, the rule, the two overrides and the
recording step append nothing: `decisionCount` and `decisionHistory` are
unchanged. -/
theorem single_branch_not_recorded (g : Globals) (hc : g.centerMem = false)
    (hx : (g.leftMem = true ∧ g.rightMem = false) ∨ (g.leftMem = false ∧ g.rightMem = true)) :
    (exploreCycle g).decisionCount = g.decisionCount ∧
    (exploreCycle g).decisionHistory = g.decisionHistory := by
  obtain ⟨rh, l, c, r, d, dm, hist, dc⟩ := g
  simp only at hc hx
  subst hc
  rcases hx with ⟨rfl, rfl⟩ | ⟨rfl, rfl⟩ <;> cases rh <;>
    simp [exploreCycle, record, overrides, searchRule, rightHandRule, leftHandRule]

theorem single_branch_not_recorded_witness :
    (exploreCycle ⟨true, true, false, false, nul, nul, mkBuffer ['S'], 0⟩).decisionCount = 0 ∧
    (exploreCycle ⟨true, true, false, false, nul, nul, mkBuffer ['S'], 0⟩).decisionHistory =
      mkBuffer ['S'] :=
  single_branch_not_recorded ⟨true, true, false, false, nul, nul, mkBuffer ['S'], 0⟩ rfl
    (Or.inl ⟨rfl, rfl⟩)

/-! ## The overrides, goal detection and the replay cursor -/

/-- C11: override correction. In the exploration cycle, when `decision` is
`'U'` and `rightMem` is true on entry to the overrides, the maneuver handed
to `turnControl()` is `'R'`; in the replay cycle, when the selection leaves
`'U'` in `decision` (read from `optimizedPath`) and `rightMem` is true, the
maneuver handed to `turnControl()` is `'R'`. Hence at a junction with
`rightMem` true the final maneuver is never `'U'`, in the exploration cycle
(rule, then overrides) as in the replay cycle. -/
theorem override_correction (g : Globals) (p : ReplayGlobals) :
    (g.decision = 'U' → g.rightMem = true → (overrides g).decision = 'R') ∧
    ((replaySelect p).decision = 'U' → p.rightMem = true →
      (replayDecide p).decision = 'R') ∧
    (g.rightMem = true → (overrides (searchRule g)).decision ≠ 'U') ∧
    (p.rightMem = true → (replayDecide p).decision ≠ 'U') := by
  obtain ⟨rh, l, c, r, d, dm, hist, dc⟩ := g
  obtain ⟨pl, pc, pr, pd, opt, oc, pdc⟩ := p
  refine ⟨?_, ?_, ?_, ?_⟩
  · rintro rfl rfl
    cases l <;> cases c <;> simp [overrides]
  · intro hs hr
    simp only at hr
    subst hr
    have hr2 : (replaySelect ⟨pl, pc, true, pd, opt, oc, pdc⟩).rightMem = true := by
      cases pl <;> cases pc <;> simp [replaySelect]
    simp [replayDecide, replayOverride, hs, hr2]
  · rintro rfl
    cases rh <;> cases l <;> cases c <;>
      simp [overrides, searchRule, rightHandRule, leftHandRule]
  · rintro rfl
    have hr2 : (replaySelect ⟨pl, pc, true, pd, opt, oc, pdc⟩).rightMem = true := by
      cases pl <;> cases pc <;> simp [replaySelect]
    unfold replayDecide replayOverride
    by_cases hu : (replaySelect ⟨pl, pc, true, pd, opt, oc, pdc⟩).decision = 'U'
    · simp [hu, hr2]
    · simp [hu]

theorem override_correction_witness :
    (overrides ⟨false, true, true, true, 'U', nul, mkBuffer [], -1⟩).decision = 'R' ∧
    (replaySelect ⟨true, true, true, nul, mkBuffer ['U'], -1, 0⟩).decision = 'U' ∧
    (replayDecide ⟨true, true, true, nul, mkBuffer ['U'], -1, 0⟩).decision = 'R' :=
  ⟨(override_correction ⟨false, true, true, true, 'U', nul, mkBuffer [], -1⟩
      ⟨true, true, true, nul, mkBuffer ['U'], -1, 0⟩).1 rfl rfl,
    by decide,
    (override_correction ⟨false, true, true, true, 'U', nul, mkBuffer [], -1⟩
      ⟨true, true, true, nul, mkBuffer ['U'], -1, 0⟩).2.1 (by decide) rfl⟩

/-- C16: in the exploration cycle the two overrides never change the
outcome. For every combination of the flags and for both rules the overrides
leave the globals as the rule left them, so `decision` after the overrides
is the value the rule returned; and the override from `'U'` to `'R'` cannot
fire there: after a rule, `decision` is `'U'` only when `rightMem` is
false. -/
theorem overrides_after_rule (g : Globals) :
    overrides (searchRule g) = searchRule g ∧
    (overrides (searchRule g)).decision =
      (if g.rightHand then (rightHandRule g).1 else (leftHandRule g).1) ∧
    ¬ ((searchRule g).decision = 'U' ∧ (searchRule g).rightMem = true) ∧
    ((rightHandRule g).1 = 'U' → g.rightMem = false) ∧
    ((leftHandRule g).1 = 'U' → g.rightMem = false) := by
  obtain ⟨rh, l, c, r, d, dm, hist, dc⟩ := g
  cases rh <;> cases l <;> cases c <;> cases r <;>
    simp [overrides, searchRule, rightHandRule, leftHandRule]

theorem overrides_after_rule_witness :
    (rightHandRule ⟨true, false, false, false, nul, nul, mkBuffer [], -1⟩).1 = 'U' ∧
    (⟨true, false, false, false, nul, nul, mkBuffer [], -1⟩ : Globals).rightMem = false :=
  ⟨by decide,
    (overrides_after_rule ⟨true, false, false, false, nul, nul, mkBuffer [], -1⟩).2.2.2.1
      (by decide)⟩

/-- C12 (as stated, fails): with the first reading `[1000, 0, 0, 0, 1000]`
(left and right present, center absent), the second reading all at 1000,
and the cell behind `sensVals` holding 1000 at both reads, the exploration
loop breaks although the center value of the first read is not above 700. -/
theorem goal_without_first_center :
    goalDetected (senseJunction false [1000, 0, 0, 0, 1000]
      [1000, 1000, 1000, 1000, 1000] 1000 1000) = true ∧
    (updateSensors false [1000, 0, 0, 0, 1000] 1000).center = false ∧
    ¬ (700 < rdN [1000, 0, 0, 0, 1000] 2) := by
  decide

theorem updateSensors_flags (whiteLine : Bool) (vals : List Nat) (beyond : Nat)
    (h : ∀ v ∈ vals, v ≤ 1000) :
    ((updateSensors whiteLine vals beyond).left = true ↔
      700 < (if whiteLine then 1000 - rdN vals 0 else rdN vals 0)) ∧
    ((updateSensors whiteLine vals beyond).center = true ↔
      700 < (if whiteLine then 1000 - rdN vals 2 else rdN vals 2)) ∧
    ((updateSensors whiteLine vals beyond).right = true ↔ 700 < i16 beyond) := by
  have hb : ∀ i : Nat, rdN vals i ≤ 1000 := by
    intro i
    unfold rdN
    rw [List.getD_eq_getElem?_getD]
    cases hi : vals[i]? with
    | none => simp
    | some v => exact h v (List.getElem?_mem hi)
  have h0 := hb 0
  have h2 := hb 2
  have hr : (updateSensors whiteLine vals beyond).right = true ↔ 700 < i16 beyond := by
    simp [updateSensors]
  refine ⟨?_, ?_, hr⟩ <;>
    cases whiteLine <;>
    simp only [updateSensors, rdN, u16, i16, List.getD_cons_zero, List.getD_cons_succ,
      if_true, if_false, Bool.false_eq_true, decide_eq_true_eq] at * <;>
    split_ifs <;> omega

/-- C12 (amended): goal detection. For every pair of calibrated readings
(values at most 1000), under either line polarity, the exploration loop
breaks exactly when, on the first read, left is present (the outer-left
value, inverted for a white line, above 700) and the flag `right` is set,
and, on the second read, left and center are present and the flag `right`
is set. The center value of the first read is not consulted. The flag
`right` is set when the cell `updateSensors()` reads behind the four-cell
array `sensVals` is above 700; what that cell holds is left open. -/
theorem goal_iff (whiteLine : Bool) (first second : List Nat) (beyond1 beyond2 : Nat)
    (h1 : ∀ v ∈ first, v ≤ 1000) (h2 : ∀ v ∈ second, v ≤ 1000) :
    goalDetected (senseJunction whiteLine first second beyond1 beyond2) = true ↔
      (700 < (if whiteLine then 1000 - rdN first 0 else rdN first 0) ∧
       700 < i16 beyond1) ∧
      (700 < (if whiteLine then 1000 - rdN second 0 else rdN second 0) ∧
       700 < (if whiteLine then 1000 - rdN second 2 else rdN second 2) ∧
       700 < i16 beyond2) := by
  obtain ⟨a0, _, a4⟩ := updateSensors_flags whiteLine first beyond1 h1
  obtain ⟨b0, b2, b4⟩ := updateSensors_flags whiteLine second beyond2 h2
  rw [← a0, ← a4, ← b0, ← b2, ← b4]
  simp only [goalDetected, senseJunction]
  generalize updateSensors whiteLine first beyond1 = s1
  generalize updateSensors whiteLine second beyond2 = s2
  cases s1.left <;> cases s1.right <;> cases s2.left <;> cases s2.center <;>
    cases s2.right <;> simp

theorem goal_iff_witness :
    (∀ v ∈ [200, 100, 50, 100, 200], v ≤ 1000) ∧
    goalDetected (senseJunction true [200, 100, 50, 100, 200]
      [200, 100, 50, 100, 200] 800 800) = true ∧
    ((700 < (if true then 1000 - rdN [200, 100, 50, 100, 200] 0
        else rdN [200, 100, 50, 100, 200] 0) ∧
      700 < i16 800) ∧
     (700 < (if true then 1000 - rdN [200, 100, 50, 100, 200] 0
        else rdN [200, 100, 50, 100, 200] 0) ∧
      700 < (if true then 1000 - rdN [200, 100, 50, 100, 200] 2
        else rdN [200, 100, 50, 100, 200] 2) ∧
      700 < i16 800)) :=
  ⟨by decide, by decide,
    (goal_iff true [200, 100, 50, 100, 200] [200, 100, 50, 100, 200] 800 800
      (by decide) (by decide)).mp (by decide)⟩

/-- C14 (fails on the code): at the geometry `leftMem = 0`, `centerMem = 1`,
`rightMem = 0` the exploration cycle, under either rule, chooses `'S'` and
appends nothing to `decisionHistory`, while the replay cycle advances
`optCount` and takes its maneuver from `optimizedPath`. At every other
geometry the replay cycle advances the cursor exactly when the exploration
cycle appends. -/
theorem replay_consumes_unrecorded_straight :
    (∀ (rh : Bool) (d dm : Char) (hist : List Char) (dc : Int),
      (exploreCycle ⟨rh, false, true, false, d, dm, hist, dc⟩).decision = 'S' ∧
      (exploreCycle ⟨rh, false, true, false, d, dm, hist, dc⟩).decisionCount = dc ∧
      (exploreCycle ⟨rh, false, true, false, d, dm, hist, dc⟩).decisionHistory = hist) ∧
    (∀ (d : Char) (opt : List Char) (oc dc : Int),
      readsPath ⟨false, true, false, d, opt, oc, dc⟩ = true ∧
      (replayDecide ⟨false, true, false, d, opt, oc, dc⟩).optCount = oc + 1 ∧
      (replayDecide ⟨false, true, false, d, opt, oc, dc⟩).decision = rdAt opt (oc + 1)) ∧
    (∀ (rh l c r : Bool) (d dm : Char) (hist : List Char) (dc : Int)
        (d' : Char) (opt : List Char) (oc dc' : Int),
      (l = false ∧ c = true ∧ r = false) ∨
      ((replayDecide ⟨l, c, r, d', opt, oc, dc'⟩).optCount = oc + 1 ↔
        (exploreCycle ⟨rh, l, c, r, d, dm, hist, dc⟩).decisionCount = dc + 1)) := by
  refine ⟨?_, ?_, ?_⟩
  · intro rh d dm hist dc
    cases rh <;>
      simp [exploreCycle, record, overrides, searchRule, rightHandRule, leftHandRule]
  · intro d opt oc dc
    simp [readsPath, replayDecide, replayOverride, replaySelect]
  · intro rh l c r d dm hist dc d' opt oc dc'
    have hsel : ∀ p : ReplayGlobals, (replayDecide p).optCount = (replaySelect p).optCount := by
      intro p
      unfold replayDecide replayOverride
      split_ifs <;> rfl
    rw [hsel]
    cases rh <;> cases l <;> cases c <;> cases r <;>
      simp [replaySelect, exploreCycle, record, store, overrides, searchRule,
        rightHandRule, leftHandRule]

theorem replayCycle_step (j : Junction) (g : ReplayGlobals) :
    (replayCycle j g).2.decisionCount = g.decisionCount ∧
    (replayCycle j g).2.optimizedPath = g.optimizedPath ∧
    ((replayCycle j g).1 = false → (replayCycle j g).2.optCount = g.optCount) ∧
    ((replayCycle j g).1 = true → g.optCount ≠ g.decisionCount ∧
      (replayCycle j g).2.optCount =
        if readsPath { g with leftMem := j.leftMem, centerMem := j.centerMem,
                              rightMem := j.rightMem } then g.optCount + 1
        else g.optCount) := by
  obtain ⟨l, c, r, d, opt, oc, dc⟩ := g
  obtain ⟨jl, jc, jr, ll, lc, lr⟩ := j
  have hov : ∀ p : ReplayGlobals, (replayOverride p).optCount = p.optCount ∧
      (replayOverride p).decisionCount = p.decisionCount ∧
      (replayOverride p).optimizedPath = p.optimizedPath := by
    intro p
    unfold replayOverride
    split_ifs <;> exact ⟨rfl, rfl, rfl⟩
  unfold replayCycle
  simp only []
  by_cases hstop : (goalDetected ⟨jl, jc, jr, ll, lc, lr⟩ || decide (oc = dc)) = true
  · rw [if_pos hstop]
    exact ⟨rfl, rfl, fun _ => rfl, fun h => by simp at h⟩
  · rw [if_neg hstop]
    have hne : oc ≠ dc := by
      intro he
      apply hstop
      simp [he]
    unfold replayDecide
    refine ⟨?_, ?_, fun h => by simp at h, fun _ => ⟨hne, ?_⟩⟩
    · rw [(hov _).2.1]
      cases jl <;> cases jc <;> cases jr <;> simp [replaySelect]
    · rw [(hov _).2.2]
      cases jl <;> cases jc <;> cases jr <;> simp [replaySelect]
    · rw [(hov _).1]
      cases jl <;> cases jc <;> cases jr <;> simp [replaySelect, readsPath]

theorem replayLoop_invariant : ∀ (js : List Junction) (g : ReplayGlobals),
    g.optCount ≤ g.decisionCount →
    (replayLoop js g).decisionCount = g.decisionCount ∧
    (replayLoop js g).optimizedPath = g.optimizedPath ∧
    g.optCount ≤ (replayLoop js g).optCount ∧
    (replayLoop js g).optCount ≤ g.decisionCount ∧
    replayReads js g =
      (List.range ((replayLoop js g).optCount - g.optCount).toNat).map
        (fun k : Nat => g.optCount + 1 + (k : Int)) := by
  intro js
  induction js with
  | nil =>
    intro g h
    simp [replayLoop, replayReads, h]
  | cons j js ih =>
    intro g h
    obtain ⟨hdc, hopt, hf, ht⟩ := replayCycle_step j g
    rw [replayLoop, replayReads]
    cases hc : replayCycle j g with
    | mk b g1 =>
      rw [hc] at hdc hopt hf ht
      simp only [] at hdc hopt hf ht
      cases b with
      | false =>
        have := hf rfl
        simp [this, hdc, hopt, h]
      | true =>
        obtain ⟨hne, hoc⟩ := ht rfl
        have hlt : g.optCount < g.decisionCount := lt_of_le_of_ne h hne
        simp only []
        by_cases hr : readsPath { g with leftMem := j.leftMem, centerMem := j.centerMem,
                                         rightMem := j.rightMem } = true
        · rw [if_pos hr] at hoc ⊢
          obtain ⟨i1, i2, i3, i4, i5⟩ := ih g1 (by omega)
          refine ⟨by rw [i1, hdc], by rw [i2, hopt], by omega, by omega, ?_⟩
          rw [i5]
          have hn : ((replayLoop js g1).optCount - g.optCount).toNat =
              ((replayLoop js g1).optCount - g1.optCount).toNat + 1 := by omega
          rw [hn, List.range_succ_eq_map, List.map_cons, List.map_map]
          simp only [hoc, Nat.cast_zero, add_zero, List.cons.injEq, true_and]
          apply List.map_congr_left
          intro k _
          simp only [Function.comp, Nat.succ_eq_add_one, Nat.cast_add, Nat.cast_one]
          omega
        · rw [if_neg hr] at hoc ⊢
          obtain ⟨i1, i2, i3, i4, i5⟩ := ih g1 (by omega)
          refine ⟨by rw [i1, hdc], by rw [i2, hopt], by omega, by omega, ?_⟩
          rw [i5, hoc]

/-- C15: replay cursor safety. Starting the replay loop with `optCount = -1`
and `decisionCount >= -1`, after any sequence of junctions `optCount` stays
within `-1 .. decisionCount` and `decisionCount` is unchanged; the reads of
`optimizedPath` happen at the indices `0, 1, ..., optCount`, in this order
and once each, all within `0 .. decisionCount` (a cycle reads exactly when
it takes the last branch of its selection, at the incremented `optCount`);
and a cycle entered with `optCount = decisionCount` breaks the loop whatever
the junction. -/
theorem replay_cursor_safe (js : List Junction) (g : ReplayGlobals)
    (h0 : g.optCount = -1) (hd : -1 ≤ g.decisionCount) :
    -1 ≤ (replayLoop js g).optCount ∧
    (replayLoop js g).optCount ≤ g.decisionCount ∧
    (replayLoop js g).decisionCount = g.decisionCount ∧
    replayReads js g =
      (List.range ((replayLoop js g).optCount + 1).toNat).map (fun k : Nat => (k : Int)) ∧
    (∀ i ∈ replayReads js g, 0 ≤ i ∧ i ≤ g.decisionCount) ∧
    (∀ p : ReplayGlobals,
      (readsPath p = true → (replaySelect p).optCount = p.optCount + 1 ∧
        (replaySelect p).decision = rdAt p.optimizedPath (p.optCount + 1)) ∧
      (readsPath p = false → (replaySelect p).optCount = p.optCount)) ∧
    (∀ (j : Junction) (p : ReplayGlobals), p.optCount = p.decisionCount →
      (replayCycle j p).1 = false) := by
  obtain ⟨i1, _, i3, i4, i5⟩ := replayLoop_invariant js g (by omega)
  have hreads : replayReads js g =
      (List.range ((replayLoop js g).optCount + 1).toNat).map (fun k : Nat => (k : Int)) := by
    rw [i5, h0]
    have : ((replayLoop js g).optCount - -1).toNat = ((replayLoop js g).optCount + 1).toNat := by
      omega
    rw [this]
    apply List.map_congr_left
    intro k _
    omega
  refine ⟨by omega, i4, i1, hreads, ?_, ?_, ?_⟩
  · intro i hi
    rw [hreads, List.mem_map] at hi
    obtain ⟨k, hk, rfl⟩ := hi
    rw [List.mem_range] at hk
    omega
  · intro p
    obtain ⟨l, c, r, d, opt, oc, dc⟩ := p
    cases l <;> cases c <;> cases r <;> simp [readsPath, replaySelect]
  · intro j p hp
    unfold replayCycle
    simp [hp]

theorem replay_cursor_safe_witness :
    replayLoop [⟨true, true, false, false, true, false⟩, ⟨false, false, true, false, false, true⟩,
        ⟨false, true, true, false, true, true⟩, ⟨true, true, false, true, true, false⟩]
      ⟨false, false, false, nul, mkBuffer ['L', 'R'], -1, 1⟩ =
      ⟨true, true, false, 'R', mkBuffer ['L', 'R'], 1, 1⟩ ∧
    replayReads [⟨true, true, false, false, true, false⟩, ⟨false, false, true, false, false, true⟩,
        ⟨false, true, true, false, true, true⟩, ⟨true, true, false, true, true, false⟩]
      ⟨false, false, false, nul, mkBuffer ['L', 'R'], -1, 1⟩ =
      (List.range ((replayLoop [⟨true, true, false, false, true, false⟩,
          ⟨false, false, true, false, false, true⟩, ⟨false, true, true, false, true, true⟩,
          ⟨true, true, false, true, true, false⟩]
        ⟨false, false, false, nul, mkBuffer ['L', 'R'], -1, 1⟩).optCount + 1).toNat).map
        (fun k : Nat => (k : Int)) :=
  ⟨by decide,
    (replay_cursor_safe [⟨true, true, false, false, true, false⟩,
        ⟨false, false, true, false, false, true⟩, ⟨false, true, true, false, true, true⟩,
        ⟨true, true, false, true, true, false⟩]
      ⟨false, false, false, nul, mkBuffer ['L', 'R'], -1, 1⟩ rfl (by decide)).2.2.2.1⟩

/-! ## The steering clamp -/

theorem mulBy07_exact (k : Nat) (hk : k ≤ 20) :
    mulBy07 (20 * (k : Int)) = 14 * (k : Int) * 2 ^ 24 := by
  interval_cases k <;> decide

theorem tdiv_256 (a : Int) :
    (0 ≤ a → Int.tdiv a 256 = a / 256) ∧ (a < 0 → Int.tdiv a 256 = -((-a) / 256)) := by
  constructor
  · intro h
    exact Int.tdiv_eq_ediv h (by decide)
  · intro h
    have h1 : Int.tdiv (-(-a)) 256 = -(Int.tdiv (-a) 256) := Int.neg_tdiv (-a) 256
    rw [neg_neg] at h1
    rw [h1, Int.tdiv_eq_ediv (by omega) (by decide)]

theorem constrain_bounds (amt m : Int) (hm : 0 ≤ m) :
    7 * (20 * m) ≤ 10 * constrain amt (14 * m * 2 ^ 24) (20 * m) ∧
    constrain amt (14 * m * 2 ^ 24) (20 * m) ≤ 20 * m := by
  unfold constrain
  rw [Int.mul_tdiv_cancel _ (by decide)]
  have e : (2 : Int) ^ 24 = 16777216 := by decide
  rw [e]
  split_ifs <;> omega

/-- C13: the steering clamp. In a tracking cycle of `straightSegment` with a
line position `predict` in `0 .. 4000`, a `lastDeviation` in `-2000 .. 2000`
and a base speed `motorSpeed` in `0, 20, ..., 400`: the bound
`motorSpeed*(0.7)` is exactly `0.7 * motorSpeed`; `motorSpeedAdj` is
`deviation*Kp/256 + (deviation - lastDeviation)*Kd/256` with
`deviation = predict - 2000` and truncating division, no 16-bit or 32-bit
value overflowing; and both commanded wheel speeds lie between
`0.7 * motorSpeed` and `motorSpeed`, so neither is negative nor above the
base speed. -/
theorem steering_clamp (predict : Nat) (lastDeviation : Int) (k : Nat)
    (hp : predict ≤ 4000) (hl : -2000 ≤ lastDeviation) (hu : lastDeviation ≤ 2000)
    (hk : k ≤ 20) :
    mulBy07 (20 * (k : Int)) = 14 * (k : Int) * 2 ^ 24 ∧
    (straightSegmentStep predict lastDeviation (20 * k)).deviation = (predict : Int) - 2000 ∧
    (straightSegmentStep predict lastDeviation (20 * k)).motorSpeedAdj =
      Int.tdiv (((predict : Int) - 2000) * 64) 256 +
        Int.tdiv (((predict : Int) - 2000 - lastDeviation) * 256) 256 ∧
    7 * (20 * (k : Int)) ≤ 10 * (straightSegmentStep predict lastDeviation (20 * k)).motorSpeedL ∧
    (straightSegmentStep predict lastDeviation (20 * k)).motorSpeedL ≤ 20 * (k : Int) ∧
    0 ≤ (straightSegmentStep predict lastDeviation (20 * k)).motorSpeedL ∧
    7 * (20 * (k : Int)) ≤ 10 * (straightSegmentStep predict lastDeviation (20 * k)).motorSpeedR ∧
    (straightSegmentStep predict lastDeviation (20 * k)).motorSpeedR ≤ 20 * (k : Int) ∧
    0 ≤ (straightSegmentStep predict lastDeviation (20 * k)).motorSpeedR := by
  have h07 := mulBy07_exact k hk
  have hdev : i16 (u16 ((predict : Int) - midPoint)) = (predict : Int) - 2000 := by
    unfold i16 u16 midPoint
    split_ifs <;> omega
  have hd1 : int32 (((predict : Int) - 2000) * Kp) = ((predict : Int) - 2000) * 64 := by
    unfold int32 Kp; omega
  have hd2 : int32 (int16 ((predict : Int) - 2000 - lastDeviation) * Kd) =
      ((predict : Int) - 2000 - lastDeviation) * 256 := by
    unfold int32 int16 Kd; omega
  obtain ⟨tp, tn⟩ := tdiv_256 (((predict : Int) - 2000) * 64)
  have ht2 : Int.tdiv (((predict : Int) - 2000 - lastDeviation) * 256) 256 =
      (predict : Int) - 2000 - lastDeviation := Int.mul_tdiv_cancel _ (by decide)
  have hb1 : -500 ≤ Int.tdiv (((predict : Int) - 2000) * 64) 256 ∧
      Int.tdiv (((predict : Int) - 2000) * 64) 256 ≤ 500 := by
    by_cases h0 : 0 ≤ ((predict : Int) - 2000) * 64
    · rw [tp h0]; omega
    · rw [tn (by omega)]; omega
  have hadj : int16 (int32 (Int.tdiv (int32 (((predict : Int) - 2000) * Kp)) 256 +
      Int.tdiv (int32 (int16 ((predict : Int) - 2000 - lastDeviation) * Kd)) 256)) =
      Int.tdiv (((predict : Int) - 2000) * 64) 256 +
        Int.tdiv (((predict : Int) - 2000 - lastDeviation) * 256) 256 := by
    rw [hd1, hd2, ht2]
    generalize Int.tdiv (((predict : Int) - 2000) * 64) 256 = t at hb1 ⊢
    unfold int16 int32
    omega
  have hms : int16 (20 * (k : Int)) = 20 * (k : Int) := by
    unfold int16; omega
  have hadjb : -4500 ≤ Int.tdiv (((predict : Int) - 2000) * 64) 256 +
        Int.tdiv (((predict : Int) - 2000 - lastDeviation) * 256) 256 ∧
      Int.tdiv (((predict : Int) - 2000) * 64) 256 +
        Int.tdiv (((predict : Int) - 2000 - lastDeviation) * 256) 256 ≤ 4500 := by
    rw [ht2]; omega
  simp only [straightSegmentStep, hdev, hadj, hms, h07]
  generalize Int.tdiv (((predict : Int) - 2000) * 64) 256 +
        Int.tdiv (((predict : Int) - 2000 - lastDeviation) * 256) 256 = adj at hadjb ⊢
  have hL : int16 (20 * (k : Int) + adj) = 20 * (k : Int) + adj := by
    unfold int16; omega
  have hR : int16 (20 * (k : Int) - adj) = 20 * (k : Int) - adj := by
    unfold int16; omega
  rw [hL, hR]
  have cL := constrain_bounds (20 * (k : Int) + adj) k (by omega)
  have cR := constrain_bounds (20 * (k : Int) - adj) k (by omega)
  have iL : int16 (constrain (20 * (k : Int) + adj) (14 * (k : Int) * 2 ^ 24) (20 * (k : Int))) =
      constrain (20 * (k : Int) + adj) (14 * (k : Int) * 2 ^ 24) (20 * (k : Int)) := by
    unfold int16; omega
  have iR : int16 (constrain (20 * (k : Int) - adj) (14 * (k : Int) * 2 ^ 24) (20 * (k : Int))) =
      constrain (20 * (k : Int) - adj) (14 * (k : Int) * 2 ^ 24) (20 * (k : Int)) := by
    unfold int16; omega
  rw [iL, iR]
  refine ⟨trivial, trivial, trivial, cL.1, cL.2, by omega, cR.1, cR.2, by omega⟩

theorem steering_clamp_witness :
    (straightSegmentStep 3100 (-400) 180).motorSpeedAdj = 1775 ∧
    (straightSegmentStep 3100 (-400) 180).motorSpeedL = 180 ∧
    (straightSegmentStep 3100 (-400) 180).motorSpeedR = 126 ∧
    7 * (20 * ((9 : Nat) : Int)) ≤ 10 * (straightSegmentStep 3100 (-400) (20 * (9 : Nat))).motorSpeedR :=
  ⟨by decide, by decide, by decide,
    (steering_clamp 3100 (-400) 9 (by decide) (by decide) (by decide) (by decide)).2.2.2.2.2.2.1⟩

end MazeRunner
